import Mathlib

/-!
Verification of the MPC 1000 program (.pgm) codec.

The development shallowly embeds the Python sources:
  * `utils.py` (generic binary-record machinery: `class_factory`, `unpack`,
    `pack`, `int_in_range_validator`, `setter_factory`),
  * `Sample.py`, `Pad.py`, `Program.py` (the concrete record layouts), and
  * `mpc1k.py` (the legacy module holding the slider auto-correcting setters).

Buffers are `List Nat` (Python byte strings; each byte 0..255), records are
lists of field values driven by declarative field-descriptor tables mirroring
the `format` strings and `format_attrs` tables of the source.  Fallible
operations (struct packing and unpacking, validators) return `Except PErr`:
`PErr.formatError` models Python's `struct.error` (buffer too short / value
does not fit the format code / argument-count mismatch) and `PErr.rangeError`
models the `ValueError` raised by the validators.
-/

namespace Mpc1000

/-- Error kinds of the codec: `struct.error` and validator `ValueError`. -/
inductive PErr where
  | formatError : PErr
  | rangeError  : PErr
deriving DecidableEq, Repr

/-- A field value: an integer or a (byte-)string, matching the two kinds of
values the Python records hold. -/
inductive FVal where
  | int : Int → FVal
  | str : List Nat → FVal
deriving DecidableEq, Repr

/-- struct format codes used by the sources: `B`, `b`, `H`, `h`, `16s`. -/
inductive FCode where
  | u8 | s8 | u16 | s16 | str16
deriving DecidableEq, Repr

/-- Byte width of a format code. -/
def codeWidth : FCode → Nat
  | .u8 => 1
  | .s8 => 1
  | .u16 => 2
  | .s16 => 2
  | .str16 => 16

/-- Read byte `i` of buffer `b` (0 when out of range; all in-range uses are
guarded by explicit length checks mirroring `struct.unpack`). -/
def byteAt (b : List Nat) (i : Nat) : Nat := b.getD i 0

theorem byteAt_nil (i : Nat) : byteAt [] i = 0 := by
  cases i <;> rfl

theorem byteAt_cons_zero (a : Nat) (l : List Nat) : byteAt (a :: l) 0 = a := rfl

theorem byteAt_cons_succ (a : Nat) (l : List Nat) (i : Nat) :
    byteAt (a :: l) (i + 1) = byteAt l i := rfl

theorem byteAt_append_left {A : List Nat} (B : List Nat) {i : Nat}
    (h : i < A.length) : byteAt (A ++ B) i = byteAt A i := by
  induction A generalizing i with
  | nil => simp at h
  | cons a l ih =>
    cases i with
    | zero => rfl
    | succ j =>
      simp only [List.cons_append, byteAt_cons_succ]
      exact ih (by simpa using h)

theorem byteAt_append_right (A B : List Nat) (j : Nat) :
    byteAt (A ++ B) (A.length + j) = byteAt B j := by
  induction A with
  | nil => simp
  | cons a l ih =>
    simpa [List.cons_append, Nat.succ_add, byteAt_cons_succ] using ih

theorem byteAt_take {b : List Nat} {n i : Nat} (h : i < n) :
    byteAt (b.take n) i = byteAt b i := by
  induction b generalizing n i with
  | nil => simp [byteAt_nil]
  | cons a l ih =>
    cases n with
    | zero => omega
    | succ m =>
      cases i with
      | zero => rfl
      | succ j =>
        simp only [List.take_succ_cons, byteAt_cons_succ]
        exact ih (by omega)

theorem byteAt_drop (b : List Nat) (n j : Nat) :
    byteAt (b.drop n) j = byteAt b (n + j) := by
  induction b generalizing n with
  | nil => simp [byteAt_nil]
  | cons a l ih =>
    cases n with
    | zero => simp
    | succ m =>
      simp only [List.drop_succ_cons, Nat.succ_add, byteAt_cons_succ]
      exact ih m

theorem byteAt_set_eq {b : List Nat} {i : Nat} (w : Nat) (h : i < b.length) :
    byteAt (b.set i w) i = w := by
  induction b generalizing i with
  | nil => simp at h
  | cons a l ih =>
    cases i with
    | zero => rfl
    | succ j =>
      simp only [List.set_cons_succ, byteAt_cons_succ]
      exact ih (by simpa using h)

theorem byteAt_set_ne {b : List Nat} {i j : Nat} (w : Nat) (h : i ≠ j) :
    byteAt (b.set i w) j = byteAt b j := by
  induction b generalizing i j with
  | nil => cases i <;> rfl
  | cons a l ih =>
    cases i with
    | zero =>
      cases j with
      | zero => exact absurd rfl h
      | succ _ => rfl
    | succ i' =>
      cases j with
      | zero => rfl
      | succ j' =>
        simp only [List.set_cons_succ, byteAt_cons_succ]
        exact ih (by omega)

theorem byteAt_replicate (n a i : Nat) :
    byteAt (List.replicate n a) i = if i < n then a else 0 := by
  induction n generalizing i with
  | zero => simp [byteAt_nil]
  | succ m ih =>
    cases i with
    | zero => simp [List.replicate_succ, byteAt_cons_zero]
    | succ j =>
      simp only [List.replicate_succ, byteAt_cons_succ, ih]
      simp [Nat.succ_lt_succ_iff]

/-- A buffer all of whose reads give genuine byte values (Python byte strings
always satisfy this). -/
def IsByteBuf (b : List Nat) : Prop := ∀ i, byteAt b i < 256

/-- Decode a little-endian unsigned 16-bit value (`H`). -/
def decodeU16 (b : List Nat) (off : Nat) : Int :=
  (byteAt b off : Int) + 256 * (byteAt b (off + 1) : Int)

/-- Decode a 16-byte string field (`16s`): the raw bytes, nul padding kept. -/
def decodeStr16 (b : List Nat) (off : Nat) : List Nat :=
  (List.range 16).map fun j => byteAt b (off + j)

/-- Decode one field at byte offset `off` of buffer `b`, as `struct.unpack`
does for the corresponding format code. -/
def decodeAt (c : FCode) (b : List Nat) (off : Nat) : FVal :=
  match c with
  | .u8 => .int (byteAt b off)
  | .s8 =>
      .int (if byteAt b off < 128 then (byteAt b off : Int)
            else (byteAt b off : Int) - 256)
  | .u16 => .int (decodeU16 b off)
  | .s16 =>
      .int (if decodeU16 b off < 32768 then decodeU16 b off
            else decodeU16 b off - 65536)
  | .str16 => .str (decodeStr16 b off)

/-- Pad (or truncate) a byte string to 16 bytes, as `struct.pack('16s', s)`. -/
def strPad16 (bs : List Nat) : List Nat :=
  bs.take 16 ++ List.replicate (16 - (bs.take 16).length) 0

/-- Encode one field value under a format code, as `struct.pack` does; a value
that does not fit the code's width/signedness raises `struct.error`. -/
def encode : FCode → FVal → Except PErr (List Nat)
  | .u8, .int z =>
      if 0 ≤ z ∧ z ≤ 255 then .ok [z.toNat] else .error .formatError
  | .s8, .int z =>
      if -128 ≤ z ∧ z ≤ 127 then .ok [(z % 256).toNat] else .error .formatError
  | .u16, .int z =>
      if 0 ≤ z ∧ z ≤ 65535 then .ok [z.toNat % 256, z.toNat / 256]
      else .error .formatError
  | .s16, .int z =>
      if -32768 ≤ z ∧ z ≤ 32767 then
        .ok [(z % 65536).toNat % 256, (z % 65536).toNat / 256]
      else .error .formatError
  | .str16, .str bs => .ok (strPad16 bs)
  | _, _ => .error .formatError

/-- Allowed bytes of a sample name (`sample_name_validator` in `Sample.py`):
letters, digits, the explicit punctuation set, space, and nul. -/
def validNameBytes : List Nat :=
  (List.range 26).map (fun i => 97 + i) ++      -- a..z
  (List.range 26).map (fun i => 65 + i) ++      -- A..Z
  (List.range 10).map (fun i => 48 + i) ++      -- 0..9
  [33, 35, 36, 37, 38, 39, 40, 41, 45, 64, 95, 123, 125, 32, 0]

def isValidNameByte (x : Nat) : Bool := validNameBytes.contains x

/-- The two validator shapes of the sources: `int_in_range_validator(lo, hi)`
and `sample_name_validator`. -/
inductive FValidator where
  | intRange : Int → Int → FValidator
  | sampleName : FValidator
deriving DecidableEq, Repr

/-- Run a validator on a value, as the Python validator closures do; a failed
check raises `ValueError` (`rangeError`), a passed check returns the value
unchanged.  The mismatched-kind cases (an integer validator applied to a
string or vice versa) never arise in the codec and are mapped to errors. -/
def runValidator : FValidator → FVal → Except PErr FVal
  | .intRange lo hi, .int z =>
      if z < lo ∨ hi < z then .error .rangeError else .ok (.int z)
  | .intRange _ _, .str _ => .error .rangeError
  | .sampleName, .str bs =>
      if 16 < bs.length ∨ ¬ bs.all isValidNameByte then .error .rangeError
      else .ok (.str bs)
  | .sampleName, .int _ => .error .rangeError

/-- One declared field: its byte offset inside the record (determined by the
`format` string), its struct format code, and its validator from the
`format_attrs` table. -/
structure FieldSpec where
  off : Nat
  code : FCode
  vld : FValidator
deriving DecidableEq, Repr

/-- A fixed-size record layout: declared byte size (`struct.calcsize`) and the
ordered field list. -/
structure RecordSpec where
  size : Nat
  fields : List FieldSpec
deriving DecidableEq, Repr

/-- Decode-and-validate the fields in declared order (the `setattr` loop of
`class_factory.unpack`: each property setter runs its validator). -/
def unpackFields (b : List Nat) (base : Nat) : List FieldSpec → Except PErr (List FVal)
  | [] => .ok []
  | f :: fs =>
      match runValidator f.vld (decodeAt f.code b (base + f.off)) with
      | .error e => .error e
      | .ok v =>
          match unpackFields b base fs with
          | .error e => .error e
          | .ok vs => .ok (v :: vs)

/-- `class_factory.unpack` on the record starting at `base`: `struct.unpack`
raises `struct.error` when the sliced buffer is shorter than the declared
size, otherwise all fields are decoded and assigned through their validating
setters in declared order. -/
def unpackRecAt (r : RecordSpec) (b : List Nat) (base : Nat) : Except PErr (List FVal) :=
  if b.length < base + r.size then .error .formatError
  else unpackFields b base r.fields

/-- Overwrite `bs` into `l` starting at `off`. -/
def writeAt (l : List Nat) (off : Nat) (bs : List Nat) : List Nat :=
  l.take off ++ bs ++ l.drop (off + bs.length)

/-- Encode the fields in order into a zero-initialised buffer (`struct.pack`
writes each value at its format-string position, padding bytes as nul). -/
def packFields (st : List Nat) : List FieldSpec → List FVal → Except PErr (List Nat)
  | [], [] => .ok st
  | f :: fs, v :: vs =>
      match encode f.code v with
      | .error e => .error e
      | .ok bs => packFields (writeAt st f.off bs) fs vs
  | _, _ => .error .formatError

/-- `class_factory.pack`: `struct.pack` of all field values in declared order
(an argument-count mismatch is a `struct.error`). -/
def packRec (r : RecordSpec) (vs : List FVal) : Except PErr (List Nat) :=
  packFields (List.replicate r.size 0) r.fields vs

/-! ### Concrete record layouts

Field offsets are read off the `format` strings (little-endian, no alignment,
`x` = one padding byte); validators are the `format_attrs` tables. -/

/-- `Sample.py`: format `<16s x B B B h B x`, 24 bytes. -/
def sampleRec : RecordSpec :=
  { size := 24
    fields :=
      [ ⟨0,  .str16, .sampleName⟩          -- sample_name
      , ⟨17, .u8, .intRange 0 100⟩         -- level
      , ⟨18, .u8, .intRange 0 127⟩         -- range_upper
      , ⟨19, .u8, .intRange 0 127⟩         -- range_lower
      , ⟨20, .s16, .intRange (-3600) 3600⟩ -- tuning
      , ⟨22, .u8, .intRange 0 1⟩ ] }       -- play_mode

/-- `Pad.py`: the 68-byte scalar block (`pad_format` / `pad_format_attrs`). -/
def padRec : RecordSpec :=
  { size := 68
    fields :=
      [ ⟨2,  .s8, .intRange 0 1⟩           -- voice_overlap
      , ⟨3,  .s8, .intRange 0 32⟩          -- mute_group
      , ⟨5,  .u8, .intRange 0 255⟩         -- unknown
      , ⟨6,  .u8, .intRange 0 100⟩         -- attack
      , ⟨7,  .u8, .intRange 0 100⟩         -- decay
      , ⟨8,  .u8, .intRange 0 1⟩           -- decay_mode
      , ⟨11, .u8, .intRange 0 100⟩         -- vel_to_level
      , ⟨17, .s8, .intRange 0 3⟩           -- filter_1_type
      , ⟨18, .u8, .intRange 0 100⟩         -- filter_1_freq
      , ⟨19, .u8, .intRange 0 100⟩         -- filter_1_res
      , ⟨24, .u8, .intRange 0 100⟩         -- filter_1_vel_to_freq
      , ⟨25, .u8, .intRange 0 4⟩           -- filter_2_type
      , ⟨26, .u8, .intRange 0 100⟩         -- filter_2_freq
      , ⟨27, .u8, .intRange 0 100⟩         -- filter_2_res
      , ⟨32, .u8, .intRange 0 100⟩         -- filter_2_vel_to_freq
      , ⟨47, .u8, .intRange 0 100⟩         -- mixer_level
      , ⟨48, .u8, .intRange 0 100⟩         -- mixer_pan
      , ⟨49, .u8, .intRange 0 2⟩           -- output
      , ⟨50, .u8, .intRange 0 2⟩           -- fx_send
      , ⟨51, .u8, .intRange 0 100⟩         -- fx_send_level
      , ⟨52, .u8, .intRange 0 2⟩ ] }       -- filter_attenuation

/-- `Program.py`: the 44-byte MIDI/slider block (`program_format` /
`program_format_attrs`). -/
def slidersRec : RecordSpec :=
  { size := 44
    fields :=
      [ ⟨0,  .u8, .intRange 0 128⟩             -- midi_program_change
      , ⟨1,  .u8, .intRange 0 63⟩              -- slider_1_pad
      , ⟨2,  .u8, .intRange 0 255⟩             -- slider_1_unknown
      , ⟨3,  .u8, .intRange 0 4⟩               -- slider_1_parameter
      , ⟨4,  .s8, .intRange (-120) 120⟩        -- slider_1_tune_low
      , ⟨5,  .s8, .intRange (-120) 120⟩        -- slider_1_tune_high
      , ⟨6,  .s8, .intRange (-50) 50⟩          -- slider_1_filter_low
      , ⟨7,  .s8, .intRange (-50) 50⟩          -- slider_1_filter_high
      , ⟨8,  .u8, .intRange 0 127⟩             -- slider_1_layer_low
      , ⟨9,  .u8, .intRange 0 127⟩             -- slider_1_layer_high
      , ⟨10, .u8, .intRange 0 100⟩             -- slider_1_attack_low
      , ⟨11, .u8, .intRange 0 100⟩             -- slider_1_attack_high
      , ⟨12, .u8, .intRange 0 100⟩             -- slider_1_decay_low
      , ⟨13, .u8, .intRange 0 100⟩             -- slider_1_decay_high
      , ⟨14, .u8, .intRange 0 63⟩              -- slider_2_pad
      , ⟨15, .u8, .intRange 0 255⟩             -- slider_2_unknown
      , ⟨16, .u8, .intRange 0 4⟩               -- slider_2_parameter
      , ⟨17, .s8, .intRange (-120) 120⟩        -- slider_2_tune_low
      , ⟨18, .s8, .intRange (-120) 120⟩        -- slider_2_tune_high
      , ⟨19, .s8, .intRange (-50) 50⟩          -- slider_2_filter_low
      , ⟨20, .s8, .intRange (-50) 50⟩          -- slider_2_filter_high
      , ⟨21, .u8, .intRange 0 127⟩             -- slider_2_layer_low
      , ⟨22, .u8, .intRange 0 127⟩             -- slider_2_layer_high
      , ⟨23, .u8, .intRange 0 100⟩             -- slider_2_attack_low
      , ⟨24, .u8, .intRange 0 100⟩             -- slider_2_attack_high
      , ⟨25, .u8, .intRange 0 100⟩             -- slider_2_decay_low
      , ⟨26, .u8, .intRange 0 100⟩ ] }         -- slider_2_decay_high

/-- The validator of `Pad`'s additional `midi_note` attribute. -/
def midiNoteValidator : FValidator := .intRange 0 127

/-- `int_in_range` of `mpc1k.py` / the body of `int_in_range_validator`:
reject values outside the inclusive range, return in-range values
unchanged. -/
def intInRange (v lo hi : Int) : Except PErr Int :=
  if v < lo ∨ hi < v then .error .rangeError else .ok v

/-! ### Pad and Program objects -/

/-- A parsed pad as first constructed by `pad_init`: four sample records and
the scalar record (`midi_note` is not yet assigned at this point). -/
structure PadCore where
  samples : List (List FVal)
  scalars : List FVal
deriving DecidableEq, Repr

/-- A pad owned by a `Program`: `program_init` stitches `midi_note` in from
the pad→note table after construction. -/
structure Pad where
  samples : List (List FVal)
  scalars : List FVal
  midi_note : Int
deriving DecidableEq, Repr

/-- `pad_init` on the 164-byte slice starting at `base` of buffer `b`: four
samples at offsets 0, 24, 48, 72 of the slice, then the scalar record at 96.
(Python slices the buffer; reading at absolute offsets is equivalent because
every read and length check stays inside the 164-byte window.) -/
def padParseAt (b : List Nat) (base : Nat) : Except PErr PadCore :=
  match unpackRecAt sampleRec b base with
  | .error e => .error e
  | .ok s0 =>
    match unpackRecAt sampleRec b (base + 24) with
    | .error e => .error e
    | .ok s1 =>
      match unpackRecAt sampleRec b (base + 48) with
      | .error e => .error e
      | .ok s2 =>
        match unpackRecAt sampleRec b (base + 72) with
        | .error e => .error e
        | .ok s3 =>
          match unpackRecAt padRec b (base + 96) with
          | .error e => .error e
          | .ok sc => .ok ⟨[s0, s1, s2, s3], sc⟩

/-- The pad loop of `program_init`: `n` consecutive 164-byte pad records
starting at `base`. -/
def parsePads (b : List Nat) (base : Nat) : Nat → Except PErr (List PadCore)
  | 0 => .ok []
  | n + 1 =>
      match padParseAt b base with
      | .error e => .error e
      | .ok p =>
          match parsePads b (base + 164) n with
          | .error e => .error e
          | .ok ps => .ok (p :: ps)

/-- The `pad_midi_notes` assignment loop of `program_init`: each table entry
is stored through the `midi_note` property, whose validator bounds it to
0..127. -/
def assignNotes : List PadCore → List Int → Except PErr (List Pad)
  | [], [] => .ok []
  | p :: ps, n :: ns =>
      match intInRange n 0 127 with
      | .error e => .error e
      | .ok m =>
          match assignNotes ps ns with
          | .error e => .error e
          | .ok rest => .ok (⟨p.samples, p.scalars, m⟩ :: rest)
  | _, _ => .error .formatError

/-- A parsed program: header fields, the 64 pads (with midi notes assigned),
and the MIDI/slider record values.  The two note tables are not stored: they
are derived views (`program_pad_midi_notes` / `program_midi_note_pads`). -/
structure Program where
  file_size : Int
  file_type : List Nat
  pads : List Pad
  scalars : List FVal
deriving DecidableEq, Repr

/-- The 64 entries of the pad→note table as unpacked by `<64B` at offset
10520. -/
def noteVals (b : List Nat) : List Int :=
  (List.range 64).map fun i => ((byteAt b (10520 + i) : Int))

/-- `program_init`: header at 0 (format `<Hxx16s4x`, no validators), 64 pads
at 24, the 64-byte pad→note table at 10520 (validated entrywise through
`midi_note`), the 128-byte note→pad table at 10584 (read and discarded), and
the MIDI/slider record at 10712. -/
def programParse (b : List Nat) : Except PErr Program :=
  if b.length < 24 then .error .formatError
  else
    let fsz := decodeU16 b 0
    let fty := decodeStr16 b 4
    match parsePads b 24 64 with
    | .error e => .error e
    | .ok cores =>
      -- pad→note table at 10520: `struct.unpack('<64B', ...)` needs 64 bytes
      if b.length < 10584 then .error .formatError
      else
        match assignNotes cores (noteVals b) with
        | .error e => .error e
        | .ok pads =>
          -- note→pad table at 10584: `struct.unpack('<128B', ...)` needs 128
          -- bytes; the unpacked values are then ignored ("already have data
          -- from Pad MIDI Note data"), so only the length check remains
          if b.length < 10712 then .error .formatError
          else
            match unpackRecAt slidersRec b 10712 with
            | .error e => .error e
            | .ok sc => .ok ⟨fsz, fty, pads, sc⟩

/-! ### Serialization -/

/-- `program_pad_midi_notes`: the derived pad→note list. -/
def padMidiNotes (pads : List Pad) : List Int := pads.map (·.midi_note)

/-- Inner loop of `program_midi_note_pads`: `mnpl[p.midi_note] = i` for each
pad in order (`List.set` at a validated index 0..127; for validated pads this
coincides with the Python list assignment, which indexes inside the
128-element list). -/
def buildMnpGo (acc : List Int) (i : Nat) : List Pad → List Int
  | [] => acc
  | p :: ps => buildMnpGo (acc.set p.midi_note.toNat i) (i + 1) ps

/-- `program_midi_note_pads`: 128 entries default-filled with the sentinel 64,
then entry `pads[i].midi_note` set to `i` for each pad in increasing order. -/
def midiNotePads (pads : List Pad) : List Int :=
  buildMnpGo (List.replicate 128 64) 0 pads

/-- `struct.pack('<64B', ...)`-style byte packing of an integer list: each
value must be a byte, else `struct.error`. -/
def packBytes : List Int → Except PErr (List Nat)
  | [] => .ok []
  | z :: zs =>
      if 0 ≤ z ∧ z ≤ 255 then
        match packBytes zs with
        | .error e => .error e
        | .ok rest => .ok (z.toNat :: rest)
      else .error .formatError

/-- `[s.data for s in self.samples]` concatenated. -/
def packSamples : List (List FVal) → Except PErr (List Nat)
  | [] => .ok []
  | s :: ss =>
      match packRec sampleRec s with
      | .error e => .error e
      | .ok bs =>
          match packSamples ss with
          | .error e => .error e
          | .ok rest => .ok (bs ++ rest)

/-- `pad_data`: the four samples' bytes in slot order followed by the packed
scalar record; `midi_note` is not read. -/
def padData (p : Pad) : Except PErr (List Nat) :=
  match packSamples p.samples with
  | .error e => .error e
  | .ok sb =>
      match packRec padRec p.scalars with
      | .error e => .error e
      | .ok scb => .ok (sb ++ scb)

/-- `[p.data for p in self.pads]` concatenated. -/
def packPads : List Pad → Except PErr (List Nat)
  | [] => .ok []
  | p :: ps =>
      match padData p with
      | .error e => .error e
      | .ok bs =>
          match packPads ps with
          | .error e => .error e
          | .ok rest => .ok (bs ++ rest)

/-- `struct.pack('<Hxx16s4x', file_size, file_type)`. -/
def packHeader (file_size : Int) (file_type : List Nat) : Except PErr (List Nat) :=
  match encode .u16 (.int file_size) with
  | .error e => .error e
  | .ok fsb => .ok (fsb ++ ([0, 0] ++ (strPad16 file_type ++ [0, 0, 0, 0])))

/-- `program_data`: header, then the 64 pads' bytes, then the freshly
regenerated pad→note table, then the freshly regenerated note→pad table, then
the MIDI/slider record.  The `<64B>` pack requires exactly 64 note values. -/
def programData (p : Program) : Except PErr (List Nat) :=
  match packHeader p.file_size p.file_type with
  | .error e => .error e
  | .ok header =>
    -- `struct.pack('<64B', *...)` demands exactly 64 arguments
    if (padMidiNotes p.pads).length = 64 then
      match packBytes (padMidiNotes p.pads) with
      | .error e => .error e
      | .ok pmnB =>
        match packBytes (midiNotePads p.pads) with
        | .error e => .error e
        | .ok mnpB =>
          match packRec slidersRec p.scalars with
          | .error e => .error e
          | .ok scB =>
            match packPads p.pads with
            | .error e => .error e
            | .ok padsB => .ok (header ++ (padsB ++ (pmnB ++ (mnpB ++ scB))))
    else .error .formatError

/-! ### Value well-formedness predicates -/

/-- The values a format code can produce by decoding (and accept when
encoding): the code's width/signedness range, or exact 16-byte strings. -/
def canonical : FCode → FVal → Prop
  | .u8, .int z => 0 ≤ z ∧ z < 256
  | .s8, .int z => -128 ≤ z ∧ z < 128
  | .u16, .int z => 0 ≤ z ∧ z < 65536
  | .s16, .int z => -32768 ≤ z ∧ z < 32768
  | .str16, .str bs => bs.length = 16
  | _, _ => False

/-- Pointwise: every value is canonical for its field's code. -/
def CanonVals : List FieldSpec → List FVal → Prop
  | [], [] => True
  | f :: fs, v :: vs => canonical f.code v ∧ CanonVals fs vs
  | _, _ => False

/-- Pointwise: every value passes its field's validator (and is returned
unchanged by it). -/
def ValidVals : List FieldSpec → List FVal → Prop
  | [], [] => True
  | f :: fs, v :: vs => runValidator f.vld v = .ok v ∧ ValidVals fs vs
  | _, _ => False

/-- Pointwise: each value is exactly what its field decodes to in `b` at
record base `base`. -/
def DecodesTo (b : List Nat) (base : Nat) : List FieldSpec → List FVal → Prop
  | [], [] => True
  | f :: fs, v :: vs => decodeAt f.code b (base + f.off) = v ∧ DecodesTo b base fs vs
  | _, _ => False

/-- A field's declared validator only accepts values that fit its format
code (checked per concrete table by `decide`). -/
def vldFits (f : FieldSpec) : Bool :=
  match f.vld, f.code with
  | .intRange lo hi, .u8 => 0 ≤ lo && hi ≤ 255
  | .intRange lo hi, .s8 => -128 ≤ lo && hi ≤ 127
  | .intRange lo hi, .u16 => 0 ≤ lo && hi ≤ 65535
  | .intRange lo hi, .s16 => -32768 ≤ lo && hi ≤ 32767
  | .sampleName, .str16 => true
  | _, _ => false

def allFits (fs : List FieldSpec) : Bool := fs.all vldFits

/-- Field extents are in declared order, pairwise disjoint, and inside the
record size (checked per concrete table by `decide`). -/
def fieldsOkFrom (pos size : Nat) : List FieldSpec → Bool
  | [] => true
  | f :: fs =>
      pos ≤ f.off && f.off + codeWidth f.code ≤ size &&
        fieldsOkFrom (f.off + codeWidth f.code) size fs

def recOk (r : RecordSpec) : Bool := fieldsOkFrom 0 r.size r.fields

/-! ### Validator lemmas -/

theorem runValidator_ok_eq {vld : FValidator} {v w : FVal}
    (h : runValidator vld v = .ok w) : w = v := by
  cases vld <;> cases v <;> simp only [runValidator] at h <;>
    (try split at h) <;> (try cases h) <;> rfl

theorem runValidator_err_eq {vld : FValidator} {v : FVal} {e : PErr}
    (h : runValidator vld v = .error e) : e = .rangeError := by
  cases vld <;> cases v <;> simp only [runValidator] at h <;>
    (try split at h) <;> (try cases h) <;> rfl

theorem intRange_ok_iff {lo hi z : Int} :
    runValidator (.intRange lo hi) (.int z) = .ok (.int z) ↔ lo ≤ z ∧ z ≤ hi := by
  simp only [runValidator]
  split
  · constructor
    · intro h; cases h
    · omega
  · constructor
    · intro _; omega
    · intro _; rfl

/-! ### Encode lemmas -/

theorem strPad16_length (bs : List Nat) : (strPad16 bs).length = 16 := by
  simp only [strPad16, List.length_append, List.length_replicate, List.length_take]
  omega

theorem strPad16_of_length {bs : List Nat} (h : bs.length = 16) : strPad16 bs = bs := by
  simp [strPad16, List.take_of_length_le (le_of_eq h), h]

theorem encode_length {c : FCode} {v : FVal} {bs : List Nat}
    (h : encode c v = .ok bs) : bs.length = codeWidth c := by
  cases c <;> cases v <;> simp only [encode] at h <;> (try split at h) <;>
    (try cases h) <;> simp [codeWidth, strPad16_length]

theorem encode_ok_of_canonical {c : FCode} {v : FVal} (h : canonical c v) :
    ∃ bs, encode c v = .ok bs := by
  cases c <;> cases v <;> simp only [canonical] at h
  case u8.int z => exact ⟨[z.toNat], by simp only [encode]; rw [if_pos (by omega)]⟩
  case s8.int z => exact ⟨[(z % 256).toNat], by simp only [encode]; rw [if_pos (by omega)]⟩
  case u16.int z =>
    exact ⟨[z.toNat % 256, z.toNat / 256], by simp only [encode]; rw [if_pos (by omega)]⟩
  case s16.int z =>
    exact ⟨[(z % 65536).toNat % 256, (z % 65536).toNat / 256],
      by simp only [encode]; rw [if_pos (by omega)]⟩
  case str16.str bs => exact ⟨strPad16 bs, rfl⟩

/-! ### Decode lemmas -/

theorem range_map_byteAt (l : List Nat) :
    (List.range l.length).map (fun j => byteAt l j) = l := by
  induction l with
  | nil => rfl
  | cons a t ih =>
    rw [List.length_cons, List.range_succ_eq_map, List.map_cons, List.map_map]
    have h2 : (List.range t.length).map ((fun j => byteAt (a :: t) j) ∘ Nat.succ)
        = (List.range t.length).map (fun j => byteAt t j) :=
      List.map_congr_left fun j _ => byteAt_cons_succ a t j
    rw [h2, ih]
    rfl

theorem decode_agree {c : FCode} {b1 b2 : List Nat} {o1 o2 : Nat}
    (h : ∀ j, j < codeWidth c → byteAt b1 (o1 + j) = byteAt b2 (o2 + j)) :
    decodeAt c b1 o1 = decodeAt c b2 o2 := by
  cases c
  case u8 =>
    have e0 : byteAt b1 (o1 + 0) = byteAt b2 (o2 + 0) := h 0 (by simp [codeWidth])
    simp only [Nat.add_zero] at e0
    simp [decodeAt, e0]
  case s8 =>
    have e0 : byteAt b1 (o1 + 0) = byteAt b2 (o2 + 0) := h 0 (by simp [codeWidth])
    simp only [Nat.add_zero] at e0
    simp [decodeAt, e0]
  case u16 =>
    have e0 : byteAt b1 (o1 + 0) = byteAt b2 (o2 + 0) := h 0 (by simp [codeWidth])
    have e1 : byteAt b1 (o1 + 1) = byteAt b2 (o2 + 1) := h 1 (by simp [codeWidth])
    simp only [Nat.add_zero] at e0
    simp [decodeAt, decodeU16, e0, e1]
  case s16 =>
    have e0 : byteAt b1 (o1 + 0) = byteAt b2 (o2 + 0) := h 0 (by simp [codeWidth])
    have e1 : byteAt b1 (o1 + 1) = byteAt b2 (o2 + 1) := h 1 (by simp [codeWidth])
    simp only [Nat.add_zero] at e0
    simp [decodeAt, decodeU16, e0, e1]
  case str16 =>
    simp only [decodeAt, decodeStr16, FVal.str.injEq]
    apply List.map_congr_left
    intro j hj
    exact h j (by simpa [codeWidth] using hj)

theorem decode_encode {c : FCode} {v : FVal} {bs : List Nat}
    (hc : canonical c v) (he : encode c v = .ok bs) :
    decodeAt c bs 0 = v := by
  cases c <;> cases v <;> simp only [canonical] at hc <;>
    simp only [encode] at he
  case u8.int z =>
    rw [if_pos (by omega)] at he
    cases he
    simp only [decodeAt, byteAt_cons_zero, FVal.int.injEq]
    omega
  case s8.int z =>
    rw [if_pos (by omega)] at he
    cases he
    simp only [decodeAt, byteAt_cons_zero, FVal.int.injEq]
    have hz : (0:Int) ≤ z % 256 ∧ z % 256 < 256 := by omega
    have : (((z % 256).toNat : Int)) = z % 256 := Int.toNat_of_nonneg hz.1
    split <;> omega
  case u16.int z =>
    rw [if_pos (by omega)] at he
    cases he
    simp only [decodeAt, decodeU16, byteAt_cons_zero, byteAt_cons_succ, FVal.int.injEq]
    omega
  case s16.int z =>
    rw [if_pos (by omega)] at he
    cases he
    simp only [decodeAt, decodeU16, byteAt_cons_zero, byteAt_cons_succ, FVal.int.injEq]
    have hz : (0:Int) ≤ z % 65536 ∧ z % 65536 < 65536 := by omega
    have h1 : (((z % 65536).toNat % 256 : Nat) : Int) + 256 * (((z % 65536).toNat / 256 : Nat) : Int)
        = z % 65536 := by omega
    rw [h1]
    split <;> omega
  case str16.str s =>
    cases he
    simp only [decodeAt, decodeStr16, FVal.str.injEq, Nat.zero_add]
    rw [strPad16_of_length hc]
    calc (List.range 16).map (fun j => byteAt s (0 + j))
        = (List.range s.length).map (fun j => byteAt s j) := by
          rw [hc]
          apply List.map_congr_left
          intro j _
          rw [Nat.zero_add]
      _ = s := range_map_byteAt s

/-- A value passed by an integer-range validator that fits its code is
canonical; a name that was decoded (hence exactly 16 bytes) is canonical. -/
theorem validated_fits_canonical {f : FieldSpec} {v : FVal} {b : List Nat} {off : Nat}
    (hf : vldFits f = true) (hv : runValidator f.vld v = .ok v)
    (hd : decodeAt f.code b off = v) : canonical f.code v := by
  obtain ⟨o, c, vld⟩ := f
  simp only at hd hv hf ⊢
  cases vld with
  | intRange lo hi =>
    cases v with
    | str s => simp [runValidator] at hv
    | int z =>
      have hz : lo ≤ z ∧ z ≤ hi := by
        simp only [runValidator] at hv
        split at hv
        · cases hv
        · next hc => omega
      cases c
      case u8 =>
        simp only [vldFits, Bool.and_eq_true, decide_eq_true_eq] at hf
        simp only [canonical]; omega
      case s8 =>
        simp only [vldFits, Bool.and_eq_true, decide_eq_true_eq] at hf
        simp only [canonical]; omega
      case u16 =>
        simp only [vldFits, Bool.and_eq_true, decide_eq_true_eq] at hf
        simp only [canonical]; omega
      case s16 =>
        simp only [vldFits, Bool.and_eq_true, decide_eq_true_eq] at hf
        simp only [canonical]; omega
      case str16 => simp [vldFits] at hf
  | sampleName =>
    cases c
    case str16 =>
      cases v with
      | int z => simp [runValidator] at hv
      | str s =>
        simp only [canonical]
        simp only [decodeAt, FVal.str.injEq] at hd
        rw [← hd]
        simp [decodeStr16]
    all_goals simp [vldFits] at hf

/-! ### Unpack characterization -/

theorem unpackFields_ok_elim {b : List Nat} {base : Nat} :
    ∀ {fs : List FieldSpec} {vs : List FVal},
      unpackFields b base fs = .ok vs →
      DecodesTo b base fs vs ∧ ValidVals fs vs := by
  intro fs
  induction fs with
  | nil =>
    intro vs h
    simp only [unpackFields] at h
    cases h
    exact ⟨trivial, trivial⟩
  | cons f fs ih =>
    intro vs h
    simp only [unpackFields] at h
    cases hX : runValidator f.vld (decodeAt f.code b (base + f.off)) with
    | error e => rw [hX] at h; cases h
    | ok v =>
      rw [hX] at h
      cases hY : unpackFields b base fs with
      | error e => rw [hY] at h; cases h
      | ok rest =>
        rw [hY] at h
        cases h
        have hveq : v = decodeAt f.code b (base + f.off) := runValidator_ok_eq hX
        obtain ⟨ihd, ihv⟩ := ih hY
        refine ⟨⟨hveq.symm, ihd⟩, ?_, ihv⟩
        rw [← hveq] at hX
        exact hX

theorem unpackFields_ok_intro {b : List Nat} {base : Nat} :
    ∀ {fs : List FieldSpec} {vs : List FVal},
      DecodesTo b base fs vs → ValidVals fs vs →
      unpackFields b base fs = .ok vs := by
  intro fs
  induction fs with
  | nil =>
    intro vs hd _
    cases vs with
    | nil => rfl
    | cons v vs => exact hd.elim
  | cons f fs ih =>
    intro vs hd hv
    cases vs with
    | nil => exact hd.elim
    | cons v rest =>
      obtain ⟨hd1, hd2⟩ := hd
      obtain ⟨hv1, hv2⟩ := hv
      simp only [unpackFields, hd1, hv1, ih hd2 hv2]

theorem unpackFields_err_eq {b : List Nat} {base : Nat} :
    ∀ {fs : List FieldSpec} {e : PErr},
      unpackFields b base fs = .error e → e = .rangeError := by
  intro fs
  induction fs with
  | nil => intro e h; cases h
  | cons f fs ih =>
    intro e h
    simp only [unpackFields] at h
    cases hX : runValidator f.vld (decodeAt f.code b (base + f.off)) with
    | error e' =>
      rw [hX] at h
      cases h
      exact runValidator_err_eq hX
    | ok v =>
      rw [hX] at h
      cases hY : unpackFields b base fs with
      | error e' =>
        rw [hY] at h
        cases h
        exact ih hY
      | ok rest => rw [hY] at h; cases h

/-- The parse of a record fails (necessarily with a `rangeError`) exactly when
some field's validator rejects that field's decoded value. -/
theorem unpackFields_error_iff {b : List Nat} {base : Nat} :
    ∀ {fs : List FieldSpec},
      unpackFields b base fs = .error .rangeError ↔
        ∃ k f, fs.get? k = some f ∧
          runValidator f.vld (decodeAt f.code b (base + f.off)) = .error .rangeError := by
  intro fs
  induction fs with
  | nil =>
    constructor
    · intro h; cases h
    · rintro ⟨k, f, hk, -⟩; cases k <;> cases hk
  | cons f fs ih =>
    constructor
    · intro h
      simp only [unpackFields] at h
      cases hX : runValidator f.vld (decodeAt f.code b (base + f.off)) with
      | error e' =>
        have : e' = .rangeError := runValidator_err_eq hX
        subst this
        exact ⟨0, f, rfl, hX⟩
      | ok v =>
        rw [hX] at h
        cases hY : unpackFields b base fs with
        | error e' =>
          rw [hY] at h
          cases h
          obtain ⟨k, g, hk, hg⟩ := ih.1 hY
          exact ⟨k + 1, g, hk, hg⟩
        | ok rest => rw [hY] at h; cases h
    · rintro ⟨k, g, hk, hg⟩
      simp only [unpackFields]
      cases k with
      | zero =>
        cases hk
        rw [hg]
      | succ k' =>
        cases hX : runValidator f.vld (decodeAt f.code b (base + f.off)) with
        | error e' =>
          have : e' = .rangeError := runValidator_err_eq hX
          subst this
          rfl
        | ok v =>
          have : unpackFields b base fs = .error .rangeError := ih.2 ⟨k', g, hk, hg⟩
          rw [this]

/-! ### Write and pack lemmas -/

theorem writeAt_length {l bs : List Nat} {off : Nat}
    (h : off + bs.length ≤ l.length) : (writeAt l off bs).length = l.length := by
  simp only [writeAt, List.length_append, List.length_take, List.length_drop]
  omega

theorem byteAt_writeAt_lt {l bs : List Nat} {off i : Nat}
    (hi : i < off) (h : off + bs.length ≤ l.length) :
    byteAt (writeAt l off bs) i = byteAt l i := by
  have htl : (l.take off).length = off := by
    simp only [List.length_take]; omega
  rw [writeAt, List.append_assoc] at *
  rw [byteAt_append_left _ (by omega), byteAt_take hi]

theorem byteAt_writeAt_mid {l bs : List Nat} {off j : Nat}
    (hj : j < bs.length) (h : off + bs.length ≤ l.length) :
    byteAt (writeAt l off bs) (off + j) = byteAt bs j := by
  have htl : (l.take off).length = off := by
    simp only [List.length_take]; omega
  calc byteAt (writeAt l off bs) (off + j)
      = byteAt (l.take off ++ (bs ++ l.drop (off + bs.length)))
          ((l.take off).length + j) := by
        rw [writeAt, List.append_assoc, htl]
    _ = byteAt (bs ++ l.drop (off + bs.length)) j := byteAt_append_right _ _ _
    _ = byteAt bs j := byteAt_append_left _ hj

theorem fieldsOkFrom_cons {pos size : Nat} {f : FieldSpec} {fs : List FieldSpec}
    (h : fieldsOkFrom pos size (f :: fs) = true) :
    pos ≤ f.off ∧ f.off + codeWidth f.code ≤ size ∧
      fieldsOkFrom (f.off + codeWidth f.code) size fs = true := by
  simp only [fieldsOkFrom, Bool.and_eq_true, decide_eq_true_eq] at h
  exact ⟨h.1.1, h.1.2, h.2⟩

/-- Packing succeeds on canonical values. -/
theorem packFields_ok_of_canonical {st : List Nat} :
    ∀ {fs : List FieldSpec} {vs : List FVal},
      CanonVals fs vs → ∃ out, packFields st fs vs = .ok out := by
  intro fs
  induction fs generalizing st with
  | nil =>
    intro vs hc
    cases vs with
    | nil => exact ⟨st, rfl⟩
    | cons v vs => exact hc.elim
  | cons f fs ih =>
    intro vs hc
    cases vs with
    | nil => exact hc.elim
    | cons v rest =>
      obtain ⟨hc1, hc2⟩ := hc
      obtain ⟨bs, hbs⟩ := encode_ok_of_canonical hc1
      obtain ⟨out, hout⟩ :
          ∃ out, packFields (writeAt st f.off bs) fs rest = .ok out := ih hc2
      exact ⟨out, by simp only [packFields, hbs, hout]⟩

/-- Main packing invariant: the output keeps the state's length, leaves bytes
below `pos` untouched, and each field's bytes decode back to its value. -/
theorem packFields_spec :
    ∀ {fs : List FieldSpec} {vs : List FVal} {st out : List Nat} {pos : Nat},
      fieldsOkFrom pos st.length fs = true →
      CanonVals fs vs →
      packFields st fs vs = .ok out →
      out.length = st.length ∧
      (∀ i, i < pos → byteAt out i = byteAt st i) ∧
      DecodesTo out 0 fs vs := by
  intro fs
  induction fs with
  | nil =>
    intro vs st out pos _ hc h
    cases vs with
    | nil =>
      cases h
      exact ⟨rfl, fun _ _ => rfl, trivial⟩
    | cons v vs => exact hc.elim
  | cons f fs ih =>
    intro vs st out pos hok hc h
    cases vs with
    | nil => exact hc.elim
    | cons v rest =>
      obtain ⟨hc1, hc2⟩ := hc
      obtain ⟨h1, h2, h3⟩ := fieldsOkFrom_cons hok
      simp only [packFields] at h
      cases hbs : encode f.code v with
      | error e => rw [hbs] at h; cases h
      | ok bs =>
        rw [hbs] at h
        have hbl : bs.length = codeWidth f.code := encode_length hbs
        have hwl : f.off + bs.length ≤ st.length := by omega
        have hstl : (writeAt st f.off bs).length = st.length := writeAt_length hwl
        have h3' : fieldsOkFrom (f.off + codeWidth f.code)
            (writeAt st f.off bs).length fs = true := by rw [hstl]; exact h3
        obtain ⟨hol, hbelow, hdec⟩ := ih h3' hc2 h
        have houtst : out.length = st.length := by rw [hol, hstl]
        refine ⟨houtst, ?_, ?_, hdec⟩
        · intro i hi
          rw [hbelow i (by omega)]
          exact byteAt_writeAt_lt (by omega) hwl
        · -- the head field's bytes sit at `f.off` in `out`, untouched by the
          -- later writes, and decode back to `v`
          have hbytes : ∀ j, j < codeWidth f.code →
              byteAt out (f.off + j) = byteAt bs j := by
            intro j hj
            rw [hbelow (f.off + j) (by omega)]
            exact byteAt_writeAt_mid (by omega) hwl
          have : decodeAt f.code out (0 + f.off) = decodeAt f.code bs 0 := by
            apply decode_agree
            intro j hj
            rw [Nat.zero_add]
            rw [Nat.zero_add]
            exact hbytes j hj
          rw [this]
          exact decode_encode hc1 hbs

/-- Fields inside an extent on which two buffers agree decode-and-validate
identically. -/
theorem unpackFields_agree {b1 b2 : List Nat} {base1 base2 size : Nat}
    (hagree : ∀ i, i < size → byteAt b1 (base1 + i) = byteAt b2 (base2 + i)) :
    ∀ (fs : List FieldSpec) (pos : Nat), fieldsOkFrom pos size fs = true →
      unpackFields b1 base1 fs = unpackFields b2 base2 fs := by
  intro fs
  induction fs with
  | nil => intro pos _; rfl
  | cons f fs ih =>
    intro pos hok
    obtain ⟨h1, h2, h3⟩ := fieldsOkFrom_cons hok
    have hdec : decodeAt f.code b1 (base1 + f.off) = decodeAt f.code b2 (base2 + f.off) := by
      apply decode_agree
      intro j hj
      rw [Nat.add_assoc, Nat.add_assoc]
      exact hagree (f.off + j) (by omega)
    simp only [unpackFields, hdec, ih (f.off + codeWidth f.code) h3]

/-- Record-level agreement: two buffers whose bytes agree on the record's
extent parse identically. -/
theorem unpackRecAt_agree {r : RecordSpec} {b1 b2 : List Nat} {base1 base2 : Nat}
    (hr : recOk r = true)
    (hl1 : base1 + r.size ≤ b1.length) (hl2 : base2 + r.size ≤ b2.length)
    (hagree : ∀ i, i < r.size → byteAt b1 (base1 + i) = byteAt b2 (base2 + i)) :
    unpackRecAt r b1 base1 = unpackRecAt r b2 base2 := by
  unfold unpackRecAt
  rw [if_neg (by omega), if_neg (by omega)]
  exact unpackFields_agree hagree r.fields 0 hr

/-- Same-offset agreement without assuming the buffer is long enough: equal
lengths make the length checks agree too. -/
theorem unpackRecAt_agree_len {r : RecordSpec} {b1 b2 : List Nat} {base : Nat}
    (hr : recOk r = true) (hl : b1.length = b2.length)
    (hagree : ∀ i, i < r.size → byteAt b1 (base + i) = byteAt b2 (base + i)) :
    unpackRecAt r b1 base = unpackRecAt r b2 base := by
  unfold unpackRecAt
  rw [hl]
  split
  · rfl
  · exact unpackFields_agree hagree r.fields 0 hr

/-! ### Record round trip -/

theorem unpackRecAt_ok_elim {r : RecordSpec} {b : List Nat} {base : Nat} {vs : List FVal}
    (h : unpackRecAt r b base = .ok vs) :
    base + r.size ≤ b.length ∧ DecodesTo b base r.fields vs ∧ ValidVals r.fields vs := by
  unfold unpackRecAt at h
  split at h
  · cases h
  · next hlen => exact ⟨by omega, unpackFields_ok_elim h⟩

theorem unpackRecAt_ok_intro {r : RecordSpec} {b : List Nat} {base : Nat} {vs : List FVal}
    (hlen : base + r.size ≤ b.length)
    (hd : DecodesTo b base r.fields vs) (hv : ValidVals r.fields vs) :
    unpackRecAt r b base = .ok vs := by
  unfold unpackRecAt
  rw [if_neg (by omega)]
  exact unpackFields_ok_intro hd hv

theorem allFits_cons {f : FieldSpec} {fs : List FieldSpec}
    (h : allFits (f :: fs) = true) : vldFits f = true ∧ allFits fs = true := by
  simpa [allFits] using h

theorem decodesTo_canon {b : List Nat} {base : Nat} :
    ∀ {fs : List FieldSpec} {vs : List FVal},
      allFits fs = true → DecodesTo b base fs vs → ValidVals fs vs →
      CanonVals fs vs := by
  intro fs
  induction fs with
  | nil =>
    intro vs _ hd _
    cases vs with
    | nil => trivial
    | cons v vs => exact hd.elim
  | cons f fs ih =>
    intro vs ha hd hv
    cases vs with
    | nil => exact hd.elim
    | cons v rest =>
      obtain ⟨ha1, ha2⟩ := allFits_cons ha
      exact ⟨validated_fits_canonical ha1 hv.1 hd.1, ih ha2 hd.2 hv.2⟩

/-- `CanonVals` and `ValidVals` together make a record serializable, with
output of exactly the declared size that unpacks back to the same values. -/
theorem packRec_ok {r : RecordSpec} {vs : List FVal}
    (hr : recOk r = true) (hc : CanonVals r.fields vs) (hv : ValidVals r.fields vs) :
    ∃ out, packRec r vs = .ok out ∧ out.length = r.size ∧
      unpackRecAt r out 0 = .ok vs := by
  obtain ⟨out, hout⟩ :
      ∃ out, packFields (List.replicate r.size 0) r.fields vs = .ok out :=
    packFields_ok_of_canonical hc
  have hst : (List.replicate r.size (0:Nat)).length = r.size := List.length_replicate _ _
  have hok : fieldsOkFrom 0 (List.replicate r.size (0:Nat)).length r.fields = true := by
    rw [hst]; exact hr
  obtain ⟨hol, _, hdec⟩ := packFields_spec hok hc hout
  refine ⟨out, hout, by rw [hol, hst], ?_⟩
  exact unpackRecAt_ok_intro (by rw [hol, hst]; omega) hdec hv

/-- Embed a record's own serialized bytes into a larger buffer. -/
theorem unpackRecAt_embed {r : RecordSpec} {seg : List Nat} {vs : List FVal}
    (hr : recOk r = true) (hok : unpackRecAt r seg 0 = .ok vs)
    {B : List Nat} {base : Nat}
    (hblen : base + r.size ≤ B.length)
    (hagree : ∀ j, j < r.size → byteAt B (base + j) = byteAt seg j) :
    unpackRecAt r B base = .ok vs := by
  have hsl : r.size ≤ seg.length := by
    have := (unpackRecAt_ok_elim hok).1
    omega
  have h2 : 0 + r.size ≤ seg.length := by omega
  rw [unpackRecAt_agree hr hblen h2
    (fun i hi => by rw [hagree i hi, Nat.zero_add])]
  exact hok

/-! ### Concrete table facts -/

theorem recOk_sample : recOk sampleRec = true := by decide

theorem recOk_pad : recOk padRec = true := by decide

theorem recOk_sliders : recOk slidersRec = true := by decide

theorem allFits_sample : allFits sampleRec.fields = true := by decide

theorem allFits_pad : allFits padRec.fields = true := by decide

theorem allFits_sliders : allFits slidersRec.fields = true := by decide

/-! ### Program well-formedness -/

/-- The invariant a record's value list enjoys after a validated parse (or
after validated mutations of parse-produced values). -/
def RecVals (r : RecordSpec) (vs : List FVal) : Prop :=
  CanonVals r.fields vs ∧ ValidVals r.fields vs

def CoreOk (c : PadCore) : Prop :=
  c.samples.length = 4 ∧ (∀ s ∈ c.samples, RecVals sampleRec s) ∧
    RecVals padRec c.scalars

def PadOk (p : Pad) : Prop :=
  p.samples.length = 4 ∧ (∀ s ∈ p.samples, RecVals sampleRec s) ∧
    RecVals padRec p.scalars ∧ 0 ≤ p.midi_note ∧ p.midi_note ≤ 127

/-- The invariant of a `Program` constructed from a well-formed buffer:
header fields fit their (unvalidated) format codes, 64 pads each satisfying
`PadOk`, and validated slider values. -/
def ProgramOk (p : Program) : Prop :=
  0 ≤ p.file_size ∧ p.file_size < 65536 ∧ p.file_type.length = 16 ∧
    p.pads.length = 64 ∧ (∀ pad ∈ p.pads, PadOk pad) ∧
    RecVals slidersRec p.scalars

theorem unpackRec_recVals {r : RecordSpec} {b : List Nat} {base : Nat} {vs : List FVal}
    (ha : allFits r.fields = true) (h : unpackRecAt r b base = .ok vs) :
    RecVals r vs := by
  obtain ⟨_, hd, hv⟩ := unpackRecAt_ok_elim h
  exact ⟨decodesTo_canon ha hd hv, hv⟩

theorem padParseAt_ok_core {b : List Nat} {base : Nat} {c : PadCore}
    (h : padParseAt b base = .ok c) : CoreOk c := by
  unfold padParseAt at h
  cases h0 : unpackRecAt sampleRec b base with
  | error e => rw [h0] at h; cases h
  | ok s0 =>
  rw [h0] at h
  cases h1 : unpackRecAt sampleRec b (base + 24) with
  | error e => rw [h1] at h; cases h
  | ok s1 =>
  rw [h1] at h
  cases h2 : unpackRecAt sampleRec b (base + 48) with
  | error e => rw [h2] at h; cases h
  | ok s2 =>
  rw [h2] at h
  cases h3 : unpackRecAt sampleRec b (base + 72) with
  | error e => rw [h3] at h; cases h
  | ok s3 =>
  rw [h3] at h
  cases h4 : unpackRecAt padRec b (base + 96) with
  | error e => rw [h4] at h; cases h
  | ok sc =>
  rw [h4] at h
  cases h
  refine ⟨rfl, ?_, unpackRec_recVals allFits_pad h4⟩
  intro s hs
  simp only [List.mem_cons, List.mem_singleton, List.not_mem_nil, or_false] at hs
  rcases hs with rfl | rfl | rfl | rfl
  · exact unpackRec_recVals allFits_sample h0
  · exact unpackRec_recVals allFits_sample h1
  · exact unpackRec_recVals allFits_sample h2
  · exact unpackRec_recVals allFits_sample h3

theorem parsePads_ok_elim {b : List Nat} :
    ∀ {n : Nat} {base : Nat} {cores : List PadCore},
      parsePads b base n = .ok cores →
      cores.length = n ∧ ∀ c ∈ cores, CoreOk c := by
  intro n
  induction n with
  | zero =>
    intro base cores h
    cases h
    exact ⟨rfl, by simp⟩
  | succ m ih =>
    intro base cores h
    simp only [parsePads] at h
    cases h0 : padParseAt b base with
    | error e => rw [h0] at h; cases h
    | ok c =>
    rw [h0] at h
    cases h1 : parsePads b (base + 164) m with
    | error e => rw [h1] at h; cases h
    | ok cs =>
    rw [h1] at h
    cases h
    obtain ⟨hl, hall⟩ := ih h1
    refine ⟨by simp [hl], ?_⟩
    intro x hx
    rcases List.mem_cons.1 hx with rfl | hx'
    · exact padParseAt_ok_core h0
    · exact hall x hx'

theorem assignNotes_ok_elim :
    ∀ {cores : List PadCore} {notes : List Int} {pads : List Pad},
      assignNotes cores notes = .ok pads →
      (∀ c ∈ cores, CoreOk c) →
      pads.length = cores.length ∧ ∀ pad ∈ pads, PadOk pad := by
  intro cores
  induction cores with
  | nil =>
    intro notes pads h _
    cases notes with
    | nil => cases h; exact ⟨rfl, by simp⟩
    | cons n ns => cases h
  | cons c cs ih =>
    intro notes pads h hall
    cases notes with
    | nil => cases h
    | cons n ns =>
      simp only [assignNotes] at h
      cases h0 : intInRange n 0 127 with
      | error e => rw [h0] at h; cases h
      | ok m =>
      rw [h0] at h
      cases h1 : assignNotes cs ns with
      | error e => rw [h1] at h; cases h
      | ok rest =>
      rw [h1] at h
      cases h
      have hm : 0 ≤ m ∧ m ≤ 127 ∧ m = n := by
        unfold intInRange at h0
        split at h0
        · cases h0
        · next hcond => cases h0; omega
      obtain ⟨hlen, hrest⟩ := ih h1 (fun x hx => hall x (List.mem_cons_of_mem _ hx))
      refine ⟨by simp [hlen], ?_⟩
      intro pad hpad
      rcases List.mem_cons.1 hpad with rfl | hp'
      · obtain ⟨hc1, hc2, hc3⟩ := hall c (List.mem_cons_self _ _)
        exact ⟨hc1, hc2, hc3, hm.1, hm.2.1⟩
      · exact hrest pad hp'

/-- Decomposition of a successful program parse into its stages. -/
theorem programParse_ok_elim {b : List Nat} {p : Program}
    (h : programParse b = .ok p) :
    10756 ≤ b.length ∧
    p.file_size = decodeU16 b 0 ∧ p.file_type = decodeStr16 b 4 ∧
    ∃ cores, parsePads b 24 64 = .ok cores ∧
      assignNotes cores (noteVals b) = .ok p.pads ∧
      unpackRecAt slidersRec b 10712 = .ok p.scalars := by
  simp only [programParse] at h
  split at h
  · cases h
  · split at h
    · cases h
    · next cores hc =>
      split at h
      · cases h
      · split at h
        · cases h
        · next pads ha =>
          split at h
          · cases h
          · split at h
            · cases h
            · next sc hs =>
              cases h
              have hlen : 10712 + slidersRec.size ≤ b.length := (unpackRecAt_ok_elim hs).1
              refine ⟨by simpa [slidersRec] using hlen, rfl, rfl, cores, hc, ha, hs⟩

theorem decodeU16_bounds {b : List Nat} (hb : IsByteBuf b) (off : Nat) :
    0 ≤ decodeU16 b off ∧ decodeU16 b off < 65536 := by
  have h0 := hb off
  have h1 := hb (off + 1)
  simp only [decodeU16]
  omega

theorem decodeStr16_length (b : List Nat) (off : Nat) :
    (decodeStr16 b off).length = 16 := by
  simp [decodeStr16]

/-- A program parsed from a well-formed (byte-valued) buffer satisfies the
program invariant. -/
theorem programParse_ok_wf {b : List Nat} {p : Program}
    (hb : IsByteBuf b) (h : programParse b = .ok p) : ProgramOk p := by
  obtain ⟨hlen, hfs, hft, cores, hc, ha, hs⟩ := programParse_ok_elim h
  obtain ⟨hcl, hcall⟩ := parsePads_ok_elim hc
  obtain ⟨hpl, hpall⟩ := assignNotes_ok_elim ha hcall
  obtain ⟨hb0, hb1⟩ := decodeU16_bounds hb 0
  refine ⟨by rw [hfs]; exact hb0, by rw [hfs]; exact hb1, ?_, ?_, hpall,
    unpackRec_recVals allFits_sliders hs⟩
  · rw [hft]; exact decodeStr16_length b 4
  · rw [hpl, hcl]

/-! ### Pad serialization round trip -/

theorem list_len4 {α : Type _} {l : List α} (h : l.length = 4) :
    ∃ a b c d, l = [a, b, c, d] := by
  cases l with
  | nil => simp at h
  | cons a t =>
  cases t with
  | nil => simp at h
  | cons b t2 =>
  cases t2 with
  | nil => simp at h
  | cons c t3 =>
  cases t3 with
  | nil => simp at h
  | cons d t4 =>
  cases t4 with
  | nil => exact ⟨a, b, c, d, rfl⟩
  | cons e t5 => simp at h

/-- Reading past a 24-byte segment. -/
theorem byteAt_skip24 {X : List Nat} (Y : List Nat) (m : Nat)
    (hX : X.length = 24) : byteAt (X ++ Y) (24 + m) = byteAt Y m := by
  rw [show 24 + m = X.length + m from by omega, byteAt_append_right]

/-- A `PadOk` pad serializes to 164 bytes that re-parse (at any embedding
position) to the pad's own samples and scalars. -/
theorem padData_ok {p : Pad} (hp : PadOk p) :
    ∃ pd, padData p = .ok pd ∧ pd.length = 164 ∧
      (∃ c0 c1 c2 c3 csc, pd = c0 ++ (c1 ++ (c2 ++ (c3 ++ csc))) ∧
        c0.length = 24 ∧ c1.length = 24 ∧ c2.length = 24 ∧ c3.length = 24 ∧
        csc.length = 68) ∧
      ∀ A C : List Nat,
        padParseAt (A ++ (pd ++ C)) A.length = .ok ⟨p.samples, p.scalars⟩ := by
  obtain ⟨hp4, hpsamp, hpsc, _, _⟩ := hp
  obtain ⟨s0, s1, s2, s3, hseq⟩ := list_len4 hp4
  have m0 : s0 ∈ p.samples := by rw [hseq]; simp
  have m1 : s1 ∈ p.samples := by rw [hseq]; simp
  have m2 : s2 ∈ p.samples := by rw [hseq]; simp
  have m3 : s3 ∈ p.samples := by rw [hseq]; simp
  obtain ⟨b0, hb0, hb0l, hb0u⟩ := packRec_ok recOk_sample (hpsamp s0 m0).1 (hpsamp s0 m0).2
  obtain ⟨b1, hb1, hb1l, hb1u⟩ := packRec_ok recOk_sample (hpsamp s1 m1).1 (hpsamp s1 m1).2
  obtain ⟨b2, hb2, hb2l, hb2u⟩ := packRec_ok recOk_sample (hpsamp s2 m2).1 (hpsamp s2 m2).2
  obtain ⟨b3, hb3, hb3l, hb3u⟩ := packRec_ok recOk_sample (hpsamp s3 m3).1 (hpsamp s3 m3).2
  obtain ⟨scb, hscb, hscbl, hscbu⟩ := packRec_ok recOk_pad hpsc.1 hpsc.2
  have hsampleSize : sampleRec.size = 24 := rfl
  have hpadSize : padRec.size = 68 := rfl
  rw [hsampleSize] at hb0l hb1l hb2l hb3l
  rw [hpadSize] at hscbl
  have hsb : packSamples p.samples = .ok (b0 ++ (b1 ++ (b2 ++ (b3 ++ [])))) := by
    rw [hseq]
    simp only [packSamples, hb0, hb1, hb2, hb3]
  -- the pad record bytes, flattened to a right-nested append
  refine ⟨b0 ++ (b1 ++ (b2 ++ (b3 ++ scb))), ?_, ?_,
    ⟨b0, b1, b2, b3, scb, rfl, hb0l, hb1l, hb2l, hb3l, hscbl⟩, ?_⟩
  · unfold padData
    rw [hsb, hscb]
    simp [List.append_assoc]
  · simp only [List.length_append]
    omega
  · intro A C
    set pd := b0 ++ (b1 ++ (b2 ++ (b3 ++ scb))) with hpd
    have hpdl : pd.length = 164 := by
      simp only [hpd, List.length_append]; omega
    -- byte views of the five sub-records inside pd
    have v0 : ∀ j, j < 24 → byteAt pd j = byteAt b0 j := by
      intro j hj
      exact byteAt_append_left _ (by omega)
    have v1 : ∀ j, j < 24 → byteAt pd (24 + j) = byteAt b1 j := by
      intro j hj
      rw [hpd, byteAt_skip24 _ _ hb0l]
      exact byteAt_append_left _ (by omega)
    have v2 : ∀ j, j < 24 → byteAt pd (48 + j) = byteAt b2 j := by
      intro j hj
      rw [hpd, show (48 + j) = 24 + (24 + j) from by omega,
        byteAt_skip24 _ _ hb0l, byteAt_skip24 _ _ hb1l]
      exact byteAt_append_left _ (by omega)
    have v3 : ∀ j, j < 24 → byteAt pd (72 + j) = byteAt b3 j := by
      intro j hj
      rw [hpd, show (72 + j) = 24 + (24 + (24 + j)) from by omega,
        byteAt_skip24 _ _ hb0l, byteAt_skip24 _ _ hb1l, byteAt_skip24 _ _ hb2l]
      exact byteAt_append_left _ (by omega)
    have vsc : ∀ j, j < 68 → byteAt pd (96 + j) = byteAt scb j := by
      intro j hj
      rw [hpd, show (96 + j) = 24 + (24 + (24 + (24 + j))) from by omega,
        byteAt_skip24 _ _ hb0l, byteAt_skip24 _ _ hb1l, byteAt_skip24 _ _ hb2l,
        byteAt_skip24 _ _ hb3l]
    -- reads of the embedded pad record
    have hBl : (A ++ (pd ++ C)).length = A.length + (164 + C.length) := by
      simp [hpdl]
    have hread : ∀ m, m < 164 → byteAt (A ++ (pd ++ C)) (A.length + m) = byteAt pd m := by
      intro m hm
      rw [byteAt_append_right]
      exact byteAt_append_left _ (by omega)
    have e0 : unpackRecAt sampleRec (A ++ (pd ++ C)) A.length = .ok s0 := by
      apply unpackRecAt_embed recOk_sample hb0u
      · rw [hBl, hsampleSize]; omega
      · intro j hj
        rw [hsampleSize] at hj
        rw [hread j (by omega)]
        exact v0 j hj
    have e1 : unpackRecAt sampleRec (A ++ (pd ++ C)) (A.length + 24) = .ok s1 := by
      apply unpackRecAt_embed recOk_sample hb1u
      · rw [hBl, hsampleSize]; omega
      · intro j hj
        rw [hsampleSize] at hj
        rw [show A.length + 24 + j = A.length + (24 + j) from by omega,
          hread (24 + j) (by omega)]
        exact v1 j hj
    have e2 : unpackRecAt sampleRec (A ++ (pd ++ C)) (A.length + 48) = .ok s2 := by
      apply unpackRecAt_embed recOk_sample hb2u
      · rw [hBl, hsampleSize]; omega
      · intro j hj
        rw [hsampleSize] at hj
        rw [show A.length + 48 + j = A.length + (48 + j) from by omega,
          hread (48 + j) (by omega)]
        exact v2 j hj
    have e3 : unpackRecAt sampleRec (A ++ (pd ++ C)) (A.length + 72) = .ok s3 := by
      apply unpackRecAt_embed recOk_sample hb3u
      · rw [hBl, hsampleSize]; omega
      · intro j hj
        rw [hsampleSize] at hj
        rw [show A.length + 72 + j = A.length + (72 + j) from by omega,
          hread (72 + j) (by omega)]
        exact v3 j hj
    have e4 : unpackRecAt padRec (A ++ (pd ++ C)) (A.length + 96) = .ok p.scalars := by
      apply unpackRecAt_embed recOk_pad hscbu
      · rw [hBl, hpadSize]; omega
      · intro j hj
        rw [hpadSize] at hj
        rw [show A.length + 96 + j = A.length + (96 + j) from by omega,
          hread (96 + j) (by omega)]
        exact vsc j hj
    simp only [padParseAt, e0, e1, e2, e3, e4]
    rw [← hseq]

/-- The 64-pad region: packing the pads concatenates their 164-byte records,
and the pad loop of the parser recovers exactly the pads' cores from it. -/
theorem packPads_ok {pads : List Pad} (h : ∀ pad ∈ pads, PadOk pad) :
    ∃ P, packPads pads = .ok P ∧ P.length = 164 * pads.length ∧
      ∀ A C : List Nat, parsePads (A ++ (P ++ C)) A.length pads.length
        = .ok (pads.map fun q => PadCore.mk q.samples q.scalars) := by
  induction pads with
  | nil =>
    refine ⟨[], rfl, by simp, fun A C => rfl⟩
  | cons q qs ih =>
    obtain ⟨pd, hpd, hpdl, -, hpdparse⟩ := padData_ok (h q (List.mem_cons_self _ _))
    obtain ⟨P, hP, hPl, hPparse⟩ := ih fun x hx => h x (List.mem_cons_of_mem _ hx)
    refine ⟨pd ++ P, ?_, ?_, ?_⟩
    · simp only [packPads, hpd, hP]
    · simp only [List.length_append, List.length_cons, hpdl, hPl]
      ring
    · intro A C
      have hbuf : A ++ ((pd ++ P) ++ C) = A ++ (pd ++ (P ++ C)) := by
        simp [List.append_assoc]
      rw [hbuf]
      simp only [List.length_cons, List.map_cons, parsePads]
      rw [hpdparse A (P ++ C)]
      have hbuf2 : A ++ (pd ++ (P ++ C)) = (A ++ pd) ++ (P ++ C) := by
        simp [List.append_assoc]
      have hlen2 : A.length + 164 = (A ++ pd).length := by
        simp [hpdl]
      rw [hbuf2, hlen2, hPparse (A ++ pd) C]

/-- The packed header: 24 bytes that decode back to the header fields, read
through any buffer agreeing with them. -/
theorem packHeader_ok {fsz : Int} {fty : List Nat}
    (h0 : 0 ≤ fsz) (h1 : fsz < 65536) (h2 : fty.length = 16) :
    ∃ H, packHeader fsz fty = .ok H ∧ H.length = 24 ∧
      ∀ B : List Nat, (∀ i, i < 24 → byteAt B i = byteAt H i) →
        decodeU16 B 0 = fsz ∧ decodeStr16 B 4 = fty := by
  have hc : canonical .u16 (.int fsz) := ⟨h0, h1⟩
  obtain ⟨fsb, hfsb⟩ := encode_ok_of_canonical hc
  have hfsbl : fsb.length = 2 := encode_length hfsb
  have hdec : decodeAt .u16 fsb 0 = .int fsz := decode_encode hc hfsb
  have hfd : decodeU16 fsb 0 = fsz := by
    simpa [decodeAt] using hdec
  have hpadfty : strPad16 fty = fty := strPad16_of_length h2
  refine ⟨fsb ++ ([0, 0] ++ (fty ++ [0, 0, 0, 0])), ?_, ?_, ?_⟩
  · unfold packHeader
    rw [hfsb, hpadfty]
  · simp [hfsbl, h2]
  · intro B hB
    set H := fsb ++ ([0, 0] ++ (fty ++ [0, 0, 0, 0])) with hH
    have hH01 : ∀ j, j < 2 → byteAt H j = byteAt fsb j := by
      intro j hj
      exact byteAt_append_left _ (by omega)
    have hHty : ∀ j, j < 16 → byteAt H (4 + j) = byteAt fty j := by
      intro j hj
      rw [hH, show 4 + j = fsb.length + (2 + j) from by omega, byteAt_append_right,
        show (2 + j) = ([0, 0] : List Nat).length + j from by simp, byteAt_append_right]
      exact byteAt_append_left _ (by omega)
    constructor
    · rw [decodeU16, hB 0 (by omega), hB 1 (by omega), hH01 0 (by omega),
        hH01 1 (by omega)]
      rw [decodeU16] at hfd
      simpa using hfd
    · rw [decodeStr16]
      have : ∀ j ∈ List.range 16, byteAt B (4 + j) = byteAt fty j := by
        intro j hj
        have hj16 : j < 16 := List.mem_range.1 hj
        rw [hB (4 + j) (by omega), hHty j hj16]
      rw [List.map_congr_left this]
      rw [show (16:Nat) = fty.length from h2.symm]
      exact range_map_byteAt fty

/-! ### Byte-table lemmas -/

theorem packBytes_ok {ns : List Int} (h : ∀ z ∈ ns, 0 ≤ z ∧ z ≤ 255) :
    packBytes ns = .ok (ns.map Int.toNat) := by
  induction ns with
  | nil => rfl
  | cons z zs ih =>
    have hz := h z (List.mem_cons_self _ _)
    simp only [packBytes, if_pos hz, ih fun x hx => h x (List.mem_cons_of_mem _ hx),
      List.map_cons]

/-- Reading back a list of byte-packed nonnegative integers. -/
theorem noteVals_of_map {ns : List Int} (h : ∀ z ∈ ns, 0 ≤ z) :
    (List.range ns.length).map (fun i => ((byteAt (ns.map Int.toNat) i : Nat) : Int)) = ns := by
  induction ns with
  | nil => rfl
  | cons z t ih =>
    rw [List.length_cons, List.range_succ_eq_map, List.map_cons, List.map_map,
      List.map_cons]
    have hhead : ((byteAt (z.toNat :: t.map Int.toNat) 0 : Nat) : Int) = z := by
      rw [byteAt_cons_zero]
      exact Int.toNat_of_nonneg (h z (List.mem_cons_self _ _))
    have htail : (List.range t.length).map
        ((fun i => ((byteAt (z.toNat :: t.map Int.toNat) i : Nat) : Int)) ∘ Nat.succ) = t := by
      have hc : ∀ j ∈ List.range t.length,
          ((fun i => ((byteAt (z.toNat :: t.map Int.toNat) i : Nat) : Int)) ∘ Nat.succ) j
            = ((byteAt (t.map Int.toNat) j : Nat) : Int) := by
        intro j _
        simp only [Function.comp_apply]
        rw [byteAt_cons_succ]
      rw [List.map_congr_left hc]
      exact ih fun x hx => h x (List.mem_cons_of_mem _ hx)
    rw [hhead, htail]

theorem buildMnpGo_length : ∀ (ps : List Pad) (acc : List Int) (i : Nat),
    (buildMnpGo acc i ps).length = acc.length := by
  intro ps
  induction ps with
  | nil => intro acc i; rfl
  | cons p t ih =>
    intro acc i
    simp only [buildMnpGo, ih, List.length_set]

theorem midiNotePads_length (pads : List Pad) : (midiNotePads pads).length = 128 := by
  simp [midiNotePads, buildMnpGo_length]

theorem buildMnpGo_mem : ∀ {ps : List Pad} {acc : List Int} {i : Nat} {x : Int},
    x ∈ buildMnpGo acc i ps → x ∈ acc ∨ ∃ k, k < ps.length ∧ x = ((i + k : Nat) : Int) := by
  intro ps
  induction ps with
  | nil => intro acc i x hx; exact Or.inl hx
  | cons p t ih =>
    intro acc i x hx
    simp only [buildMnpGo] at hx
    rcases ih hx with hset | ⟨k, hk, rfl⟩
    · rcases List.mem_or_eq_of_mem_set hset with hacc | rfl
      · exact Or.inl hacc
      · exact Or.inr ⟨0, by simp, by simp⟩
    · exact Or.inr ⟨k + 1, by simp [Nat.succ_lt_succ_iff]; omega, by
        norm_num; omega⟩

theorem midiNotePads_entries {pads : List Pad} (h : pads.length ≤ 64) :
    ∀ x ∈ midiNotePads pads, 0 ≤ x ∧ x ≤ 64 := by
  intro x hx
  rcases buildMnpGo_mem hx with hrep | ⟨k, hk, rfl⟩
  · have : x = 64 := List.eq_of_mem_replicate hrep
    omega
  · constructor
    · positivity
    · have : (0:Nat) + k < 64 := by omega
      omega

theorem assignNotes_reconstruct :
    ∀ {pads : List Pad}, (∀ q ∈ pads, 0 ≤ q.midi_note ∧ q.midi_note ≤ 127) →
      assignNotes (pads.map fun q => PadCore.mk q.samples q.scalars)
        (padMidiNotes pads) = .ok pads := by
  intro pads
  induction pads with
  | nil => intro _; rfl
  | cons q t ih =>
    intro h
    have hq := h q (List.mem_cons_self _ _)
    simp only [padMidiNotes, List.map_cons, assignNotes]
    rw [show intInRange q.midi_note 0 127 = .ok q.midi_note from by
      unfold intInRange; rw [if_neg (by omega)]]
    have := ih fun x hx => h x (List.mem_cons_of_mem _ hx)
    simp only [padMidiNotes] at this
    rw [this]

/-! ### Program serialization round trip -/

/-- A well-formed program serializes to exactly 10756 bytes, which parse back
to the very same program. -/
theorem programData_ok {p : Program} (hp : ProgramOk p) :
    ∃ H P M N S, programData p = .ok (H ++ (P ++ (M ++ (N ++ S)))) ∧
      H.length = 24 ∧ P.length = 10496 ∧ M.length = 64 ∧ N.length = 128 ∧
      S.length = 44 ∧
      M = (padMidiNotes p.pads).map Int.toNat ∧
      N = (midiNotePads p.pads).map Int.toNat ∧
      packPads p.pads = .ok P ∧
      programParse (H ++ (P ++ (M ++ (N ++ S)))) = .ok p := by
  obtain ⟨hfs0, hfs1, hftl, hp64, hpall, hsv⟩ := hp
  obtain ⟨H, hH, hHl, hHdec⟩ := packHeader_ok hfs0 hfs1 hftl
  have hnotesb : ∀ z ∈ padMidiNotes p.pads, 0 ≤ z ∧ z ≤ 127 := by
    intro z hz
    obtain ⟨q, hq, rfl⟩ := List.mem_map.1 hz
    exact ⟨(hpall q hq).2.2.2.1, (hpall q hq).2.2.2.2⟩
  have hnl : (padMidiNotes p.pads).length = 64 := by
    simp [padMidiNotes, hp64]
  have hM : packBytes (padMidiNotes p.pads) = .ok ((padMidiNotes p.pads).map Int.toNat) :=
    packBytes_ok fun z hz => ⟨(hnotesb z hz).1, by have := (hnotesb z hz).2; omega⟩
  set M := (padMidiNotes p.pads).map Int.toNat with hMdef
  have hMl : M.length = 64 := by
    rw [hMdef, List.length_map]; exact hnl
  have hNent : ∀ x ∈ midiNotePads p.pads, 0 ≤ x ∧ x ≤ 64 :=
    midiNotePads_entries (by omega)
  have hN : packBytes (midiNotePads p.pads) = .ok ((midiNotePads p.pads).map Int.toNat) :=
    packBytes_ok fun z hz => ⟨(hNent z hz).1, by have := (hNent z hz).2; omega⟩
  set N := (midiNotePads p.pads).map Int.toNat with hNdef
  have hNl : N.length = 128 := by
    rw [hNdef, List.length_map]; exact midiNotePads_length p.pads
  obtain ⟨S, hS, hSl, hSu⟩ := packRec_ok recOk_sliders hsv.1 hsv.2
  have hSl44 : S.length = 44 := by rw [hSl]; rfl
  obtain ⟨P, hP, hPl, hPparse⟩ := packPads_ok hpall
  have hPl' : P.length = 10496 := by rw [hPl, hp64]
  set out := H ++ (P ++ (M ++ (N ++ S))) with houtdef
  have houtl : out.length = 10756 := by
    simp only [houtdef, List.length_append, hHl, hPl', hMl, hNl, hSl44]
  refine ⟨H, P, M, N, S, ?_, hHl, hPl', hMl, hNl, hSl44, hMdef, hNdef, hP, ?_⟩
  · unfold programData
    simp only [hH, hM, hN, hS, hP]
    rw [if_pos hnl]
  · have hr1 : ∀ i, i < 24 → byteAt out i = byteAt H i := by
      intro i hi
      rw [houtdef]
      exact byteAt_append_left _ (by omega)
    have hhdr := hHdec out hr1
    have hpp : parsePads out 24 64
        = .ok (p.pads.map fun q => PadCore.mk q.samples q.scalars) := by
      have hx := hPparse H (M ++ (N ++ S))
      rw [hp64, hHl] at hx
      rw [houtdef]
      exact hx
    have hnv : noteVals out = padMidiNotes p.pads := by
      unfold noteVals
      have hb : ∀ i ∈ List.range 64,
          ((byteAt out (10520 + i) : Nat) : Int) = ((byteAt M i : Nat) : Int) := by
        intro i hi
        have hi64 : i < 64 := List.mem_range.1 hi
        have : byteAt out (10520 + i) = byteAt M i := by
          rw [houtdef,
            show 10520 + i = H.length + (P.length + i) from by rw [hHl, hPl']; omega,
            byteAt_append_right, byteAt_append_right]
          exact byteAt_append_left _ (by omega)
        rw [this]
      rw [List.map_congr_left hb,
        show (64:Nat) = (padMidiNotes p.pads).length from hnl.symm]
      exact noteVals_of_map fun z hz => (hnotesb z hz).1
    have han : assignNotes (p.pads.map fun q => PadCore.mk q.samples q.scalars)
        (noteVals out) = .ok p.pads := by
      rw [hnv]
      exact assignNotes_reconstruct fun q hq =>
        ⟨(hpall q hq).2.2.2.1, (hpall q hq).2.2.2.2⟩
    have hsl : unpackRecAt slidersRec out 10712 = .ok p.scalars := by
      apply unpackRecAt_embed recOk_sliders hSu
      · have : slidersRec.size = 44 := rfl
        omega
      · intro j hj
        have hj44 : j < 44 := by
          have : slidersRec.size = 44 := rfl
          omega
        rw [houtdef,
          show 10712 + j = H.length + (P.length + (M.length + (N.length + j))) from by
            rw [hHl, hPl', hMl, hNl]; omega,
          byteAt_append_right, byteAt_append_right, byteAt_append_right,
          byteAt_append_right]
    have h24 : ¬ out.length < 24 := by omega
    have h10584 : ¬ out.length < 10584 := by omega
    have h10712 : ¬ out.length < 10712 := by omega
    simp only [programParse, if_neg h24, hpp, if_neg h10584, han, if_neg h10712, hsl]
    rw [hhdr.1, hhdr.2]

/-! ### Parse agreement and stage independence -/

theorem padParseAt_agree {b1 b2 : List Nat} {base : Nat}
    (hl : b1.length = b2.length)
    (hagree : ∀ i, i < 164 → byteAt b1 (base + i) = byteAt b2 (base + i)) :
    padParseAt b1 base = padParseAt b2 base := by
  have hs : sampleRec.size = 24 := rfl
  have hps : padRec.size = 68 := rfl
  have e0 : unpackRecAt sampleRec b1 base = unpackRecAt sampleRec b2 base :=
    unpackRecAt_agree_len recOk_sample hl fun i hi => hagree i (by rw [hs] at hi; omega)
  have e1 : unpackRecAt sampleRec b1 (base + 24) = unpackRecAt sampleRec b2 (base + 24) :=
    unpackRecAt_agree_len recOk_sample hl fun i hi => by
      rw [hs] at hi
      rw [Nat.add_assoc]
      exact hagree (24 + i) (by omega)
  have e2 : unpackRecAt sampleRec b1 (base + 48) = unpackRecAt sampleRec b2 (base + 48) :=
    unpackRecAt_agree_len recOk_sample hl fun i hi => by
      rw [hs] at hi
      rw [Nat.add_assoc]
      exact hagree (48 + i) (by omega)
  have e3 : unpackRecAt sampleRec b1 (base + 72) = unpackRecAt sampleRec b2 (base + 72) :=
    unpackRecAt_agree_len recOk_sample hl fun i hi => by
      rw [hs] at hi
      rw [Nat.add_assoc]
      exact hagree (72 + i) (by omega)
  have e4 : unpackRecAt padRec b1 (base + 96) = unpackRecAt padRec b2 (base + 96) :=
    unpackRecAt_agree_len recOk_pad hl fun i hi => by
      rw [hps] at hi
      rw [Nat.add_assoc]
      exact hagree (96 + i) (by omega)
  simp only [padParseAt, e0, e1, e2, e3, e4]

theorem parsePads_agree {b1 b2 : List Nat} (hl : b1.length = b2.length) :
    ∀ (n : Nat) (base : Nat),
      (∀ i, i < 164 * n → byteAt b1 (base + i) = byteAt b2 (base + i)) →
      parsePads b1 base n = parsePads b2 base n := by
  intro n
  induction n with
  | zero => intro base _; rfl
  | succ m ih =>
    intro base hagree
    have hpad : padParseAt b1 base = padParseAt b2 base :=
      padParseAt_agree hl fun i hi => hagree i (by omega)
    have hrest : parsePads b1 (base + 164) m = parsePads b2 (base + 164) m :=
      ih (base + 164) fun i hi => by
        rw [Nat.add_assoc]
        exact hagree (164 + i) (by omega)
    simp only [parsePads, hpad, hrest]

/-- Whole-parse agreement: the bytes of the note→pad table region
(10584..10711) are irrelevant to the parse result. -/
theorem programParse_agree {b1 b2 : List Nat} (hl : b1.length = b2.length)
    (hlow : ∀ i, i < 10584 → byteAt b1 i = byteAt b2 i)
    (hhigh : ∀ i, 10712 ≤ i → byteAt b1 i = byteAt b2 i) :
    programParse b1 = programParse b2 := by
  have hcores : parsePads b1 24 64 = parsePads b2 24 64 :=
    parsePads_agree hl 64 24 fun i hi => hlow (24 + i) (by omega)
  have hnv : noteVals b1 = noteVals b2 := by
    unfold noteVals
    apply List.map_congr_left
    intro i hi
    have : i < 64 := List.mem_range.1 hi
    rw [hlow (10520 + i) (by omega)]
  have hsl : unpackRecAt slidersRec b1 10712 = unpackRecAt slidersRec b2 10712 := by
    apply unpackRecAt_agree_len recOk_sliders hl
    intro i hi
    exact hhigh (10712 + i) (by omega)
  have hfs : decodeU16 b1 0 = decodeU16 b2 0 := by
    unfold decodeU16
    rw [hlow 0 (by omega), hlow 1 (by omega)]
  have hft : decodeStr16 b1 4 = decodeStr16 b2 4 := by
    unfold decodeStr16
    apply List.map_congr_left
    intro j hj
    have : j < 16 := List.mem_range.1 hj
    rw [hlow (4 + j) (by omega)]
  simp only [programParse, hl, hcores, hnv, hsl, hfs, hft]

/-- A note outside 0..127 in the pad→note table aborts the assignment loop
with the `midi_note` validator's `rangeError`. -/
theorem assignNotes_err :
    ∀ {cores : List PadCore} {notes : List Int},
      cores.length = notes.length →
      (∃ z ∈ notes, z < 0 ∨ 127 < z) →
      assignNotes cores notes = .error .rangeError := by
  intro cores
  induction cores with
  | nil =>
    intro notes hlen hex
    cases notes with
    | nil => obtain ⟨z, hz, -⟩ := hex; cases hz
    | cons n ns => cases hlen
  | cons c cs ih =>
    intro notes hlen hex
    cases notes with
    | nil => cases hlen
    | cons n ns =>
      simp only [assignNotes]
      by_cases hn : n < 0 ∨ 127 < n
      · rw [show intInRange n 0 127 = .error .rangeError from by
          unfold intInRange; rw [if_pos (by omega)]]
      · have hex' : ∃ z ∈ ns, z < 0 ∨ 127 < z := by
          obtain ⟨z, hz, hzv⟩ := hex
          rcases List.mem_cons.1 hz with rfl | hz'
          · exact absurd hzv hn
          · exact ⟨z, hz', hzv⟩
        rw [show intInRange n 0 127 = .ok n from by
          unfold intInRange; rw [if_neg (by omega)]]
        rw [ih (by simpa using hlen) hex']

/-- Replace the 128-byte note→pad region of a buffer. -/
def spliceMnp (b t : List Nat) : List Nat :=
  b.take 10584 ++ (t ++ b.drop 10712)

theorem spliceMnp_length {b t : List Nat} (hb : 10756 ≤ b.length)
    (ht : t.length = 128) : (spliceMnp b t).length = b.length := by
  simp only [spliceMnp, List.length_append, List.length_take, List.length_drop, ht]
  omega

theorem spliceMnp_low {b t : List Nat} (hb : 10756 ≤ b.length) {i : Nat}
    (hi : i < 10584) : byteAt (spliceMnp b t) i = byteAt b i := by
  unfold spliceMnp
  rw [byteAt_append_left _ (by simp [List.length_take]; omega), byteAt_take hi]

theorem spliceMnp_high {b t : List Nat} (hb : 10756 ≤ b.length)
    (ht : t.length = 128) {i : Nat} (hi : 10712 ≤ i) :
    byteAt (spliceMnp b t) i = byteAt b i := by
  unfold spliceMnp
  have htl : (b.take 10584).length = 10584 := by
    simp [List.length_take]; omega
  conv_lhs =>
    rw [show i = (b.take 10584).length + (t.length + (i - 10712)) from by
      rw [htl, ht]; omega]
  rw [byteAt_append_right, byteAt_append_right, byteAt_drop,
    show 10712 + (i - 10712) = i from by omega]

/-- Parsing is invariant under arbitrary replacement of the note→pad table
region. -/
theorem programParse_spliceMnp {b t : List Nat} (hb : 10756 ≤ b.length)
    (ht : t.length = 128) : programParse (spliceMnp b t) = programParse b :=
  programParse_agree (spliceMnp_length hb ht)
    (fun _ hi => spliceMnp_low hb hi)
    (fun _ hi => spliceMnp_high hb ht hi)

/-! ### Mutation through the generated property setters -/

/-- `setter_factory`: run the field's validator on the assigned value, then
store it; a validator failure propagates before any store happens, so the
value list is returned unchanged together with the error.  (The `none` field
case stands for an attribute lookup failure and is unreachable for declared
fields.) -/
def trySet (fields : List FieldSpec) (vs : List FVal) (k : Nat) (x : FVal) :
    List FVal × Option PErr :=
  match fields.get? k with
  | none => (vs, some .formatError)
  | some f =>
      match runValidator f.vld x with
      | .ok v => (vs.set k v, none)
      | .error e => (vs, some e)

/-- The `midi_note` property setter of `Pad` (validator
`int_in_range_validator(0, 127)` from `additional_attrs`). -/
def trySetMidiNote (p : Pad) (v : Int) : Pad × Option PErr :=
  match intInRange v 0 127 with
  | .ok m => (⟨p.samples, p.scalars, m⟩, none)
  | .error e => (p, some e)

theorem getD_set_eq {α : Type _} {l : List α} {i : Nat} (v d : α)
    (h : i < l.length) : (l.set i v).getD i d = v := by
  induction l generalizing i with
  | nil => simp at h
  | cons a t ih =>
    cases i with
    | zero => rfl
    | succ j => exact ih (by simpa using h)

theorem getD_set_ne {α : Type _} {l : List α} {i j : Nat} (v d : α)
    (h : i ≠ j) : (l.set i v).getD j d = l.getD j d := by
  induction l generalizing i j with
  | nil => cases i <;> rfl
  | cons a t ih =>
    cases i with
    | zero =>
      cases j with
      | zero => exact absurd rfl h
      | succ _ => rfl
    | succ i' =>
      cases j with
      | zero => rfl
      | succ j' => exact ih (by omega)

theorem get?_set_ne {α : Type _} {l : List α} {i j : Nat} (v : α)
    (h : i ≠ j) : (l.set i v).get? j = l.get? j := by
  induction l generalizing i j with
  | nil => cases i <;> rfl
  | cons a t ih =>
    cases i with
    | zero =>
      cases j with
      | zero => exact absurd rfl h
      | succ _ => rfl
    | succ i' =>
      cases j with
      | zero => rfl
      | succ j' => exact ih (by omega)

theorem get?_set_eq {α : Type _} {l : List α} {i : Nat} (v : α)
    (h : i < l.length) : (l.set i v).get? i = some v := by
  induction l generalizing i with
  | nil => simp at h
  | cons a t ih =>
    cases i with
    | zero => rfl
    | succ j => exact ih (by simpa using h)

/-- Every integer-range field of the three tables has `lo ≤ hi`. -/
def tableLoHiOk (fs : List FieldSpec) : Bool :=
  fs.all fun f =>
    match f.vld with
    | .intRange lo hi => lo ≤ hi
    | .sampleName => true

theorem tableLoHiOk_sample : tableLoHiOk sampleRec.fields = true := by decide

theorem tableLoHiOk_pad : tableLoHiOk padRec.fields = true := by decide

theorem tableLoHiOk_sliders : tableLoHiOk slidersRec.fields = true := by decide

/-! ### Validated-only pack totality -/

theorem encode_ok_of_validated {f : FieldSpec} {v : FVal} (hf : vldFits f = true)
    (hv : runValidator f.vld v = .ok v) : ∃ bs, encode f.code v = .ok bs := by
  obtain ⟨o, c, vld⟩ := f
  simp only at hf hv ⊢
  cases vld with
  | intRange lo hi =>
    cases v with
    | str s => simp [runValidator] at hv
    | int z =>
      have hz : lo ≤ z ∧ z ≤ hi := by
        simp only [runValidator] at hv
        split at hv
        · cases hv
        · next hc => omega
      apply encode_ok_of_canonical
      cases c
      case u8 =>
        simp only [vldFits, Bool.and_eq_true, decide_eq_true_eq] at hf
        simp only [canonical]; omega
      case s8 =>
        simp only [vldFits, Bool.and_eq_true, decide_eq_true_eq] at hf
        simp only [canonical]; omega
      case u16 =>
        simp only [vldFits, Bool.and_eq_true, decide_eq_true_eq] at hf
        simp only [canonical]; omega
      case s16 =>
        simp only [vldFits, Bool.and_eq_true, decide_eq_true_eq] at hf
        simp only [canonical]; omega
      case str16 => simp [vldFits] at hf
  | sampleName =>
    cases c
    case str16 =>
      cases v with
      | int z => simp [runValidator] at hv
      | str s => exact ⟨strPad16 s, rfl⟩
    all_goals simp [vldFits] at hf

theorem packFields_ok_of_validated {st : List Nat} :
    ∀ {fs : List FieldSpec} {vs : List FVal},
      allFits fs = true → ValidVals fs vs →
      ∃ out, packFields st fs vs = .ok out := by
  intro fs
  induction fs generalizing st with
  | nil =>
    intro vs _ hv
    cases vs with
    | nil => exact ⟨st, rfl⟩
    | cons v vs => exact hv.elim
  | cons f fs ih =>
    intro vs ha hv
    cases vs with
    | nil => exact hv.elim
    | cons v rest =>
      obtain ⟨ha1, ha2⟩ := allFits_cons ha
      obtain ⟨bs, hbs⟩ := encode_ok_of_validated ha1 hv.1
      obtain ⟨out, hout⟩ :
          ∃ out, packFields (writeAt st f.off bs) fs rest = .ok out := ih ha2 hv.2
      exact ⟨out, by simp only [packFields, hbs, hout]⟩

theorem packRec_ok_of_validated {r : RecordSpec} {vs : List FVal}
    (ha : allFits r.fields = true) (hv : ValidVals r.fields vs) :
    ∃ out, packRec r vs = .ok out :=
  packFields_ok_of_validated ha hv

/-- The minimal state invariant under which `program_data` is total: every
validated field passes its validator, the header fields fit their codes, and
there are exactly 64 pads (for the `<64B` pack). -/
def ProgramValidated (p : Program) : Prop :=
  0 ≤ p.file_size ∧ p.file_size < 65536 ∧ p.pads.length = 64 ∧
    (∀ q ∈ p.pads,
      (∀ s ∈ q.samples, ValidVals sampleRec.fields s) ∧
        ValidVals padRec.fields q.scalars ∧
        0 ≤ q.midi_note ∧ q.midi_note ≤ 127) ∧
    ValidVals slidersRec.fields p.scalars

theorem packSamples_total {ss : List (List FVal)}
    (h : ∀ s ∈ ss, ValidVals sampleRec.fields s) :
    ∃ out, packSamples ss = .ok out := by
  induction ss with
  | nil => exact ⟨[], rfl⟩
  | cons s t ih =>
    obtain ⟨bs, hbs⟩ := packRec_ok_of_validated allFits_sample (h s (List.mem_cons_self _ _))
    obtain ⟨rest, hrest⟩ := ih fun x hx => h x (List.mem_cons_of_mem _ hx)
    exact ⟨bs ++ rest, by simp only [packSamples, hbs, hrest]⟩

theorem packPads_total {pads : List Pad}
    (h : ∀ q ∈ pads, (∀ s ∈ q.samples, ValidVals sampleRec.fields s) ∧
      ValidVals padRec.fields q.scalars) :
    ∃ out, packPads pads = .ok out := by
  induction pads with
  | nil => exact ⟨[], rfl⟩
  | cons q t ih =>
    obtain ⟨sb, hsb⟩ := packSamples_total (h q (List.mem_cons_self _ _)).1
    obtain ⟨scb, hscb⟩ :=
      packRec_ok_of_validated allFits_pad (h q (List.mem_cons_self _ _)).2
    obtain ⟨rest, hrest⟩ := ih fun x hx => h x (List.mem_cons_of_mem _ hx)
    refine ⟨(sb ++ scb) ++ rest, ?_⟩
    simp only [packPads, padData, hsb, hscb, hrest]

/-- `program_data` never fails on a program whose stored values all satisfy
their validators. -/
theorem programData_total {p : Program} (hp : ProgramValidated p) :
    ∃ out, programData p = .ok out := by
  obtain ⟨h0, h1, h64, hpads, hsl⟩ := hp
  obtain ⟨fsb, hfsb⟩ : ∃ bs, encode .u16 (.int p.file_size) = .ok bs :=
    encode_ok_of_canonical ⟨h0, h1⟩
  have hnl : (padMidiNotes p.pads).length = 64 := by
    simp [padMidiNotes, h64]
  have hM : packBytes (padMidiNotes p.pads) = .ok ((padMidiNotes p.pads).map Int.toNat) := by
    apply packBytes_ok
    intro z hz
    obtain ⟨q, hq, rfl⟩ := List.mem_map.1 hz
    have := (hpads q hq).2.2
    omega
  have hN : packBytes (midiNotePads p.pads) = .ok ((midiNotePads p.pads).map Int.toNat) := by
    apply packBytes_ok
    intro z hz
    have := midiNotePads_entries (by omega) z hz
    omega
  obtain ⟨S, hS⟩ := packRec_ok_of_validated allFits_sliders hsl
  obtain ⟨P, hP⟩ := packPads_total fun q hq => ⟨(hpads q hq).1, (hpads q hq).2.1⟩
  refine ⟨(fsb ++ ([0, 0] ++ (strPad16 p.file_type ++ [0, 0, 0, 0]))) ++
      (P ++ ((padMidiNotes p.pads).map Int.toNat ++
        ((midiNotePads p.pads).map Int.toNat ++ S))), ?_⟩
  unfold programData packHeader
  rw [hfsb]
  simp only [hM, hN, hS, hP]
  rw [if_pos hnl]

/-! ### The slider pair setters of `mpc1k.py` -/

/-- One (low, high) slider range pair. -/
structure SliderPair where
  low : Int
  high : Int
deriving DecidableEq, Repr

mutual

/-- The `slider_N_<param>_low` setter: validate and store the low bound, then
(if the new low exceeds the current high) assign the high bound through its
own setter.  The fuel argument bounds the property-setter recursion depth
(Python's recursion limit); the mutual recursion provably stops after one
nested call, so fuel 2 suffices. -/
def setLowFuel : Nat → Int → Int → SliderPair → Int → Except PErr SliderPair
  | 0, _, _, _, _ => .error .formatError
  | n + 1, lo, hi, s, v =>
      match intInRange v lo hi with
      | .error e => .error e
      | .ok w =>
          let s1 : SliderPair := ⟨w, s.high⟩
          if s1.high < v then setHighFuel n lo hi s1 v else .ok s1

/-- The `slider_N_<param>_high` setter, symmetric to the low setter. -/
def setHighFuel : Nat → Int → Int → SliderPair → Int → Except PErr SliderPair
  | 0, _, _, _, _ => .error .formatError
  | n + 1, lo, hi, s, v =>
      match intInRange v lo hi with
      | .error e => .error e
      | .ok w =>
          let s1 : SliderPair := ⟨s.low, w⟩
          if v < s1.low then setLowFuel n lo hi s1 v else .ok s1

end

def setLow (lo hi : Int) (s : SliderPair) (v : Int) : Except PErr SliderPair :=
  setLowFuel 2 lo hi s v

def setHigh (lo hi : Int) (s : SliderPair) (v : Int) : Except PErr SliderPair :=
  setHighFuel 2 lo hi s v

/-- The five (low, high) bound pairs of each slider, as declared in
`mpc1k.py`: tune, filter, layer, attack, decay. -/
def sliderBoundsTable : List (Int × Int) :=
  [(-120, 120), (-50, 50), (0, 127), (0, 100), (0, 100)]

/-! ### Sequences of validated mutations (derived-table invariants) -/

/-- The mutations available through the generated property setters: a sample
field, a pad scalar field, a pad's `midi_note`, or a program slider field. -/
inductive ProgOp where
  | setSampleField (padIdx sampleIdx fieldIdx : Nat) (x : FVal)
  | setPadField (padIdx fieldIdx : Nat) (x : FVal)
  | setPadMidiNote (padIdx : Nat) (v : Int)
  | setProgField (fieldIdx : Nat) (x : FVal)

/-- Apply one setter; a validator failure leaves the program unchanged (the
exception propagates before any store). -/
def applyOp (p : Program) (op : ProgOp) : Program :=
  match op with
  | .setProgField k x =>
      { p with scalars := (trySet slidersRec.fields p.scalars k x).1 }
  | .setPadMidiNote i v =>
      match p.pads.get? i with
      | none => p
      | some q => { p with pads := p.pads.set i (trySetMidiNote q v).1 }
  | .setPadField i k x =>
      match p.pads.get? i with
      | none => p
      | some q => { p with pads := p.pads.set i (Pad.mk q.samples (trySet padRec.fields q.scalars k x).1 q.midi_note) }
  | .setSampleField i j k x =>
      match p.pads.get? i with
      | none => p
      | some q =>
          match q.samples.get? j with
          | none => p
          | some s => { p with pads := p.pads.set i (Pad.mk (q.samples.set j (trySet sampleRec.fields s k x).1) q.scalars q.midi_note) }

def applyOps (p : Program) : List ProgOp → Program
  | [] => p
  | op :: ops => applyOps (applyOp p op) ops

/-- The part of the program invariant the derived note tables depend on. -/
def NotesOk (p : Program) : Prop :=
  p.pads.length = 64 ∧ ∀ q ∈ p.pads, 0 ≤ q.midi_note ∧ q.midi_note ≤ 127

theorem notesOk_of_programOk {p : Program} (hp : ProgramOk p) : NotesOk p :=
  ⟨hp.2.2.2.1, fun q hq => ⟨(hp.2.2.2.2.1 q hq).2.2.2.1, (hp.2.2.2.2.1 q hq).2.2.2.2⟩⟩

theorem applyOp_notesOk {p : Program} {op : ProgOp} (hp : NotesOk p) :
    NotesOk (applyOp p op) := by
  obtain ⟨hl, hn⟩ := hp
  cases op with
  | setProgField k x => exact ⟨hl, hn⟩
  | setPadMidiNote i v =>
    simp only [applyOp]
    split
    · exact ⟨hl, hn⟩
    · next q hq =>
      refine ⟨by simpa using hl, ?_⟩
      intro x hx
      rcases List.mem_or_eq_of_mem_set hx with hmem | rfl
      · exact hn x hmem
      · cases h0 : intInRange v 0 127 with
        | error e =>
          unfold trySetMidiNote
          rw [h0]
          exact hn q (List.get?_mem hq)
        | ok m =>
          unfold trySetMidiNote
          rw [h0]
          have hm : 0 ≤ m ∧ m ≤ 127 := by
            unfold intInRange at h0
            split at h0
            · cases h0
            · next hc => cases h0; omega
          exact hm
  | setPadField i k x =>
    simp only [applyOp]
    split
    · exact ⟨hl, hn⟩
    · next q hq =>
      refine ⟨by simpa using hl, ?_⟩
      intro y hy
      rcases List.mem_or_eq_of_mem_set hy with hmem | rfl
      · exact hn y hmem
      · exact hn q (List.get?_mem hq)
  | setSampleField i j k x =>
    simp only [applyOp]
    split
    · exact ⟨hl, hn⟩
    · next q hq =>
      split
      · exact ⟨hl, hn⟩
      · next s hs =>
        refine ⟨by simpa using hl, ?_⟩
        intro y hy
        rcases List.mem_or_eq_of_mem_set hy with hmem | rfl
        · exact hn y hmem
        · exact hn q (List.get?_mem hq)

theorem applyOps_notesOk {p : Program} {ops : List ProgOp} (hp : NotesOk p) :
    NotesOk (applyOps p ops) := by
  induction ops generalizing p with
  | nil => exact hp
  | cons op ops ih => exact ih (applyOp_notesOk hp)

/-- The rightmost pad index holding a given note, if any (last-writer-wins
witness of the note→pad fold). -/
def lastIdxWith : List Pad → Nat → Option Nat
  | [], _ => none
  | q :: t, j =>
      match lastIdxWith t j with
      | some k => some (k + 1)
      | none => if q.midi_note = (j : Int) then some 0 else none

theorem lastIdxWith_spec {j : Nat} :
    ∀ (ps : List Pad),
      (∀ k, lastIdxWith ps j = some k →
        ∃ q, ps.get? k = some q ∧ q.midi_note = (j : Int) ∧
          ∀ l q', k < l → ps.get? l = some q' → q'.midi_note ≠ (j : Int)) ∧
      (lastIdxWith ps j = none →
        ∀ l q', ps.get? l = some q' → q'.midi_note ≠ (j : Int)) := by
  intro ps
  induction ps with
  | nil =>
    constructor
    · intro k hk
      simp [lastIdxWith] at hk
    · intro _ l q' hl
      cases l <;> simp at hl
  | cons q t ih =>
    constructor
    · intro k hk
      simp only [lastIdxWith] at hk
      cases ht : lastIdxWith t j with
      | some m =>
        simp only [ht, Option.some.injEq] at hk
        subst hk
        obtain ⟨q', hq', hm, hmax⟩ := ih.1 m ht
        refine ⟨q', hq', hm, ?_⟩
        intro l r hml hr
        cases l with
        | zero => omega
        | succ l' => exact hmax l' r (by omega) hr
      | none =>
        simp only [ht] at hk
        split at hk
        · next hqj =>
          cases hk
          refine ⟨q, rfl, hqj, ?_⟩
          intro l r hl hr
          cases l with
          | zero => omega
          | succ l' => exact ih.2 ht l' r hr
        · cases hk
    · intro hk l q' hl
      simp only [lastIdxWith] at hk
      cases ht : lastIdxWith t j with
      | some m => simp only [ht] at hk; cases hk
      | none =>
        simp only [ht] at hk
        split at hk
        · cases hk
        · next hqj =>
          cases l with
          | zero =>
            cases hl
            exact hqj
          | succ l' => exact ih.2 ht l' q' hl

theorem buildMnpGo_getD {j : Nat} (hj : j < 128) :
    ∀ {ps : List Pad} {acc : List Int} {i0 : Nat},
      acc.length = 128 →
      (∀ q ∈ ps, 0 ≤ q.midi_note ∧ q.midi_note ≤ 127) →
      (buildMnpGo acc i0 ps).getD j 64 =
        match lastIdxWith ps j with
        | some k => ((i0 + k : Nat) : Int)
        | none => acc.getD j 64 := by
  intro ps
  induction ps with
  | nil => intro acc i0 _ _; rfl
  | cons q t ih =>
    intro acc i0 hal hqs
    have hq := hqs q (List.mem_cons_self _ _)
    have hal' : (acc.set q.midi_note.toNat (i0 : Int)).length = 128 := by
      simpa using hal
    have hrec :
        (buildMnpGo (acc.set q.midi_note.toNat (i0 : Int)) (i0 + 1) t).getD j 64 =
          match lastIdxWith t j with
          | some k => ((i0 + 1 + k : Nat) : Int)
          | none => (acc.set q.midi_note.toNat (i0 : Int)).getD j 64 :=
      ih hal' fun x hx => hqs x (List.mem_cons_of_mem _ hx)
    simp only [buildMnpGo, lastIdxWith]
    rw [hrec]
    cases ht : lastIdxWith t j with
    | some k =>
      simp only
      congr 1
      omega
    | none =>
      simp only
      by_cases hqj : q.midi_note = (j : Int)
      · rw [if_pos hqj]
        have hto : q.midi_note.toNat = j := by omega
        rw [hto, getD_set_eq _ _ (by omega)]
        rfl
      · rw [if_neg hqj]
        have hto : q.midi_note.toNat ≠ j := by omega
        exact getD_set_ne _ _ hto

theorem getD_replicate {α : Type _} (n : Nat) (a : α) (j : Nat) :
    (List.replicate n a).getD j a = a := by
  induction n generalizing j with
  | zero => cases j <;> rfl
  | succ m ih =>
    cases j with
    | zero => rfl
    | succ i => exact ih i

/-- The note→pad view is exactly the inverse mapping of the current pads'
notes: each slot holds the index of the last pad with that note, or the
sentinel 64. -/
theorem midiNotePads_getD {ps : List Pad} {j : Nat} (hj : j < 128)
    (hqs : ∀ q ∈ ps, 0 ≤ q.midi_note ∧ q.midi_note ≤ 127) :
    (midiNotePads ps).getD j 64 =
      match lastIdxWith ps j with
      | some k => (k : Int)
      | none => 64 := by
  unfold midiNotePads
  rw [buildMnpGo_getD hj (by simp) hqs]
  cases ht : lastIdxWith ps j with
  | some k => simp
  | none =>
    simp only
    exact getD_replicate 128 64 j

/-! ### A concrete well-formed buffer: the all-zeros program image

Every validator of the codec accepts 0, so 10756 zero bytes form a
well-formed program buffer; it serves as the concrete instance for the
claims' witnesses. -/

def zeroBuf : List Nat := List.replicate 10756 0

theorem byteAt_zeroBuf (i : Nat) : byteAt zeroBuf i = 0 := by
  rw [zeroBuf, byteAt_replicate]
  split <;> rfl

theorem zeroBuf_length : zeroBuf.length = 10756 := by
  rw [zeroBuf]
  exact List.length_replicate 10756 0

theorem zeroBuf_bytes : IsByteBuf zeroBuf := by
  intro i
  rw [byteAt_zeroBuf]
  omega

/-- What each format code decodes from an all-zero buffer. -/
def zeroVal : FCode → FVal
  | .str16 => .str (List.replicate 16 0)
  | _ => .int 0

theorem decodeAt_zeroBuf (c : FCode) (off : Nat) :
    decodeAt c zeroBuf off = zeroVal c := by
  cases c
  case u8 => simp [decodeAt, byteAt_zeroBuf, zeroVal]
  case s8 => simp [decodeAt, byteAt_zeroBuf, zeroVal]
  case u16 => simp [decodeAt, decodeU16, byteAt_zeroBuf, zeroVal]
  case s16 => simp [decodeAt, decodeU16, byteAt_zeroBuf, zeroVal]
  case str16 => simp [decodeAt, decodeStr16, byteAt_zeroBuf, zeroVal]

/-- Decidable check that a field's validator accepts the zero decode. -/
def zeroFieldOk (f : FieldSpec) : Bool :=
  match runValidator f.vld (zeroVal f.code) with
  | .ok w => decide (w = zeroVal f.code)
  | .error _ => false

theorem zeroFieldOk_ok {f : FieldSpec} (h : zeroFieldOk f = true) :
    runValidator f.vld (zeroVal f.code) = .ok (zeroVal f.code) := by
  unfold zeroFieldOk at h
  cases hv : runValidator f.vld (zeroVal f.code) with
  | error e => rw [hv] at h; cases h
  | ok w =>
    rw [hv] at h
    have hw := of_decide_eq_true h
    rw [hw]

theorem unpackFields_zeroBuf (base : Nat) :
    ∀ (fs : List FieldSpec), fs.all zeroFieldOk = true →
      unpackFields zeroBuf base fs = .ok (fs.map fun f => zeroVal f.code) := by
  intro fs
  induction fs with
  | nil => intro _; rfl
  | cons f t ih =>
    intro hall
    obtain ⟨h1, h2⟩ : zeroFieldOk f = true ∧ t.all zeroFieldOk = true := by
      simpa using hall
    simp only [unpackFields, decodeAt_zeroBuf, zeroFieldOk_ok h1, ih h2,
      List.map_cons]

theorem unpackRecAt_zeroBuf {r : RecordSpec} (base : Nat)
    (hlen : base + r.size ≤ 10756) (hall : r.fields.all zeroFieldOk = true) :
    unpackRecAt r zeroBuf base = .ok (r.fields.map fun f => zeroVal f.code) := by
  unfold unpackRecAt
  rw [if_neg (by rw [zeroBuf_length]; omega)]
  exact unpackFields_zeroBuf base r.fields hall

theorem zeroFieldOk_sample : sampleRec.fields.all zeroFieldOk = true := by decide

theorem zeroFieldOk_pad : padRec.fields.all zeroFieldOk = true := by decide

theorem zeroFieldOk_sliders : slidersRec.fields.all zeroFieldOk = true := by decide

def zeroSampleVals : List FVal := sampleRec.fields.map fun f => zeroVal f.code

def zeroPadVals : List FVal := padRec.fields.map fun f => zeroVal f.code

def zeroSliderVals : List FVal := slidersRec.fields.map fun f => zeroVal f.code

def zeroPadCore : PadCore := ⟨List.replicate 4 zeroSampleVals, zeroPadVals⟩

def zeroPad : Pad := ⟨List.replicate 4 zeroSampleVals, zeroPadVals, 0⟩

def zeroProgram : Program :=
  ⟨0, List.replicate 16 0, List.replicate 64 zeroPad, zeroSliderVals⟩

theorem padParseAt_zeroBuf {base : Nat} (h : base + 164 ≤ 10756) :
    padParseAt zeroBuf base = .ok zeroPadCore := by
  have e0 := unpackRecAt_zeroBuf base (by
    have : sampleRec.size = 24 := rfl
    omega) zeroFieldOk_sample
  have e1 := unpackRecAt_zeroBuf (base + 24) (by
    have : sampleRec.size = 24 := rfl
    omega) zeroFieldOk_sample
  have e2 := unpackRecAt_zeroBuf (base + 48) (by
    have : sampleRec.size = 24 := rfl
    omega) zeroFieldOk_sample
  have e3 := unpackRecAt_zeroBuf (base + 72) (by
    have : sampleRec.size = 24 := rfl
    omega) zeroFieldOk_sample
  have e4 := unpackRecAt_zeroBuf (base + 96) (by
    have : padRec.size = 68 := rfl
    omega) zeroFieldOk_pad
  simp only [padParseAt, e0, e1, e2, e3, e4]
  rfl

theorem parsePads_zeroBuf :
    ∀ (n : Nat) (base : Nat), base + 164 * n ≤ 10756 →
      parsePads zeroBuf base n = .ok (List.replicate n zeroPadCore) := by
  intro n
  induction n with
  | zero => intro base _; rfl
  | succ m ih =>
    intro base hlen
    have hpad : padParseAt zeroBuf base = .ok zeroPadCore :=
      padParseAt_zeroBuf (by omega)
    have hrest := ih (base + 164) (by omega)
    simp only [parsePads, hpad, hrest, List.replicate_succ]

theorem noteVals_zeroBuf : noteVals zeroBuf = List.replicate 64 0 := by
  unfold noteVals
  rw [List.eq_replicate_iff]
  refine ⟨by simp, ?_⟩
  intro x hx
  obtain ⟨j, -, rfl⟩ := List.mem_map.1 hx
  rw [byteAt_zeroBuf]
  rfl

theorem assignNotes_zeroNotes :
    ∀ (n : Nat) (c : PadCore),
      assignNotes (List.replicate n c) (List.replicate n 0)
        = .ok (List.replicate n ⟨c.samples, c.scalars, 0⟩) := by
  intro n
  induction n with
  | zero => intro c; rfl
  | succ m ih =>
    intro c
    simp only [List.replicate_succ, assignNotes, ih c]
    rfl

theorem programParse_zeroBuf : programParse zeroBuf = .ok zeroProgram := by
  have hpp := parsePads_zeroBuf 64 24 (by norm_num)
  have han := assignNotes_zeroNotes 64 zeroPadCore
  have hsl := unpackRecAt_zeroBuf 10712 (by
    have : slidersRec.size = 44 := rfl
    omega) zeroFieldOk_sliders
  have h24 : ¬ zeroBuf.length < 24 := by rw [zeroBuf_length]; omega
  have h10584 : ¬ zeroBuf.length < 10584 := by rw [zeroBuf_length]; omega
  have h10712 : ¬ zeroBuf.length < 10712 := by rw [zeroBuf_length]; omega
  unfold programParse
  rw [if_neg h24]
  simp only [hpp]
  rw [if_neg h10584]
  rw [noteVals_zeroBuf]
  simp only [han]
  rw [if_neg h10712]
  simp only [hsl]
  have hfs : decodeU16 zeroBuf 0 = 0 := by
    simp [decodeU16, byteAt_zeroBuf]
  have hft : decodeStr16 zeroBuf 4 = List.replicate 16 0 := by
    have hd := decodeAt_zeroBuf .str16 4
    simpa [decodeAt, zeroVal] using hd
  rw [hfs, hft]
  rfl

/-! ### Output segmentation helpers -/

theorem drop_append_right {α : Type _} (A B : List α) (m : Nat) :
    (A ++ B).drop (A.length + m) = B.drop m := by
  induction A with
  | nil => simp
  | cons a t ih => simp [Nat.succ_add, ih]

theorem take_append_self {α : Type _} (A B : List α) :
    (A ++ B).take A.length = A := by
  induction A with
  | nil => simp
  | cons a t ih => simp [ih]

/-- The 128-byte note→pad section of a serialized program sits at offset
10584. -/
theorem segment_mnp {H P M N S : List Nat}
    (hH : H.length = 24) (hP : P.length = 10496) (hM : M.length = 64)
    (hN : N.length = 128) :
    ((H ++ (P ++ (M ++ (N ++ S)))).drop 10584).take 128 = N := by
  rw [show 10584 = H.length + (P.length + (M.length + 0)) from by
    rw [hH, hP, hM]]
  rw [drop_append_right, drop_append_right, drop_append_right, List.drop_zero,
    ← hN, take_append_self]

/-- The chunk decomposition of the 64-pad region: one 164-byte record per
pad, each made of four 24-byte sample records and the 68-byte scalar block. -/
theorem packPads_chunks {pads : List Pad} {P : List Nat}
    (h : ∀ q ∈ pads, PadOk q) (hP : packPads pads = .ok P) :
    ∃ pds : List (List Nat), P = pds.flatten ∧ pds.length = pads.length ∧
      ∀ c ∈ pds, c.length = 164 ∧
        ∃ c0 c1 c2 c3 csc, c = c0 ++ (c1 ++ (c2 ++ (c3 ++ csc))) ∧
          c0.length = 24 ∧ c1.length = 24 ∧ c2.length = 24 ∧ c3.length = 24 ∧
          csc.length = 68 := by
  induction pads generalizing P with
  | nil =>
    cases hP
    exact ⟨[], rfl, rfl, by simp⟩
  | cons q t ih =>
    obtain ⟨pd, hpd, hpdl, hchunks, -⟩ := padData_ok (h q (List.mem_cons_self _ _))
    simp only [packPads, hpd] at hP
    cases hrest : packPads t with
    | error e => rw [hrest] at hP; cases hP
    | ok rest =>
      rw [hrest] at hP
      cases hP
      obtain ⟨pds, rfl, hlen, hall⟩ := ih (fun x hx => h x (List.mem_cons_of_mem _ hx)) hrest
      refine ⟨pd :: pds, by simp, by simp [hlen], ?_⟩
      intro c hc
      rcases List.mem_cons.1 hc with rfl | hc'
      · exact ⟨hpdl, hchunks⟩
      · exact hall c hc'

/-- `NotesOk` holds for any successfully parsed program (no byte-boundedness
of the buffer needed). -/
theorem programParse_ok_notesOk {b : List Nat} {p : Program}
    (h : programParse b = .ok p) : NotesOk p := by
  obtain ⟨-, -, -, cores, hc, ha, -⟩ := programParse_ok_elim h
  obtain ⟨hcl, hcall⟩ := parsePads_ok_elim hc
  obtain ⟨hpl, hpall⟩ := assignNotes_ok_elim ha hcall
  exact ⟨by rw [hpl, hcl], fun q hq => ⟨(hpall q hq).2.2.2.1, (hpall q hq).2.2.2.2⟩⟩

/-! ### Remaining helper lemmas for the claims -/

theorem decodesTo_eq_map {b : List Nat} {base : Nat} :
    ∀ {fs : List FieldSpec} {vs : List FVal},
      DecodesTo b base fs vs →
      vs = fs.map fun f => decodeAt f.code b (base + f.off) := by
  intro fs
  induction fs with
  | nil =>
    intro vs hd
    cases vs with
    | nil => rfl
    | cons v vs => exact hd.elim
  | cons f fs ih =>
    intro vs hd
    cases vs with
    | nil => exact hd.elim
    | cons v rest =>
      rw [List.map_cons, ← hd.1, ih hd.2]

theorem programOk_validated {p : Program} (hp : ProgramOk p) :
    ProgramValidated p := by
  obtain ⟨h0, h1, -, h64, hpads, hsl⟩ := hp
  refine ⟨h0, h1, h64, ?_, hsl.2⟩
  intro q hq
  obtain ⟨-, hsamp, hsc, hm0, hm1⟩ := hpads q hq
  exact ⟨fun s hs => (hsamp s hs).2, hsc.2, hm0, hm1⟩

theorem setLowFuel_succ {n : Nat} {lo hi v : Int} {s : SliderPair}
    (hok : intInRange v lo hi = .ok v) :
    setLowFuel (n + 1) lo hi s v =
      if s.high < v then setHighFuel n lo hi ⟨v, s.high⟩ v
      else .ok ⟨v, s.high⟩ := by
  unfold setLowFuel
  rw [hok]

theorem setHighFuel_succ {n : Nat} {lo hi v : Int} {s : SliderPair}
    (hok : intInRange v lo hi = .ok v) :
    setHighFuel (n + 1) lo hi s v =
      if v < s.low then setLowFuel n lo hi ⟨s.low, v⟩ v
      else .ok ⟨s.low, v⟩ := by
  unfold setHighFuel
  rw [hok]

/-! ### The claims -/

/-- Claim C1: for every Program parsed from a well-formed buffer, serializing
it succeeds and re-parsing the produced bytes yields a Program equal to the
original in every field (Sample fields of all 4 samples of all 64 pads, all
Pad scalar fields, each pad's midi_note, header fields, midi_program_change,
and all slider fields) — `Program` equality covers them all. -/
theorem claim_C1 (b : List Nat) (p : Program)
    (hb : IsByteBuf b) (h : programParse b = .ok p) :
    ∃ out, programData p = .ok out ∧ programParse out = .ok p := by
  obtain ⟨H, P, M, N, S, hdata, -, -, -, -, -, -, -, -, hparse⟩ :=
    programData_ok (programParse_ok_wf hb h)
  exact ⟨_, hdata, hparse⟩

theorem claim_C1_witness :
    IsByteBuf zeroBuf ∧ programParse zeroBuf = .ok zeroProgram ∧
    ∃ out, programData zeroProgram = .ok out ∧
      programParse out = .ok zeroProgram :=
  ⟨zeroBuf_bytes, programParse_zeroBuf,
    claim_C1 zeroBuf zeroProgram zeroBuf_bytes programParse_zeroBuf⟩

/-- Claim C2: for each of the slider (low, high) range pairs (the five
parameter bound pairs, identical on both sliders), setting the low bound to
an in-range value above the current high also raises the high to that value,
setting the high bound to an in-range value below the current low also lowers
the low to that value, and in all cases the mutation is accepted and leaves
`low ≤ high`. -/
theorem claim_C2 (lo hi : Int) (hmem : (lo, hi) ∈ sliderBoundsTable)
    (s : SliderPair) (v : Int) (hlo : lo ≤ v) (hhi : v ≤ hi) :
    (s.high < v → setLow lo hi s v = .ok ⟨v, v⟩) ∧
    (v < s.low → setHigh lo hi s v = .ok ⟨v, v⟩) ∧
    (∃ s1, setLow lo hi s v = .ok s1 ∧ s1.low = v ∧ s1.low ≤ s1.high) ∧
    (∃ s2, setHigh lo hi s v = .ok s2 ∧ s2.high = v ∧ s2.low ≤ s2.high) := by
  have hok : intInRange v lo hi = .ok v := by
    unfold intInRange
    rw [if_neg (by omega)]
  have hlow2 : setLow lo hi s v =
      if s.high < v then setHighFuel 1 lo hi ⟨v, s.high⟩ v
      else .ok ⟨v, s.high⟩ := setLowFuel_succ hok
  have hhigh2 : setHigh lo hi s v =
      if v < s.low then setLowFuel 1 lo hi ⟨s.low, v⟩ v
      else .ok ⟨s.low, v⟩ := setHighFuel_succ hok
  have hinnerH : setHighFuel 1 lo hi ⟨v, s.high⟩ v = .ok ⟨v, v⟩ := by
    rw [setHighFuel_succ hok]
    rw [if_neg (by simp)]
  have hinnerL : setLowFuel 1 lo hi ⟨s.low, v⟩ v = .ok ⟨v, v⟩ := by
    rw [setLowFuel_succ hok]
    rw [if_neg (by simp)]
  refine ⟨?_, ?_, ?_, ?_⟩
  · intro hc
    rw [hlow2, if_pos hc, hinnerH]
  · intro hc
    rw [hhigh2, if_pos hc, hinnerL]
  · by_cases hc : s.high < v
    · exact ⟨⟨v, v⟩, by rw [hlow2, if_pos hc, hinnerH], rfl, le_refl v⟩
    · exact ⟨⟨v, s.high⟩, by rw [hlow2, if_neg hc], rfl, by
        simp only
        omega⟩
  · by_cases hc : v < s.low
    · exact ⟨⟨v, v⟩, by rw [hhigh2, if_pos hc, hinnerL], rfl, le_refl v⟩
    · exact ⟨⟨s.low, v⟩, by rw [hhigh2, if_neg hc], rfl, by
        simp only
        omega⟩

theorem claim_C2_witness :
    ((-120 : Int), (120 : Int)) ∈ sliderBoundsTable ∧
    ((⟨0, 50⟩ : SliderPair).high < 80 →
      setLow (-120) 120 ⟨0, 50⟩ 80 = .ok ⟨80, 80⟩) ∧
    ((80 : Int) < (⟨0, 50⟩ : SliderPair).low →
      setHigh (-120) 120 ⟨0, 50⟩ 80 = .ok ⟨80, 80⟩) ∧
    (∃ s1, setLow (-120) 120 ⟨0, 50⟩ 80 = .ok s1 ∧ s1.low = 80 ∧
      s1.low ≤ s1.high) ∧
    (∃ s2, setHigh (-120) 120 ⟨0, 50⟩ 80 = .ok s2 ∧ s2.high = 80 ∧
      s2.low ≤ s2.high) :=
  ⟨by decide,
    (claim_C2 (-120) 120 (by decide) ⟨0, 50⟩ 80 (by decide) (by decide)).1,
    (claim_C2 (-120) 120 (by decide) ⟨0, 50⟩ 80 (by decide) (by decide)).2.1,
    (claim_C2 (-120) 120 (by decide) ⟨0, 50⟩ 80 (by decide) (by decide)).2.2.1,
    (claim_C2 (-120) 120 (by decide) ⟨0, 50⟩ 80 (by decide) (by decide)).2.2.2⟩

/-- Claim C3: the serialized 128-byte note→pad table (bytes 10584..10711 of
the output) is exactly the freshly regenerated inverse table — 128 sentinel
64 entries with entry `pads[i].midi_note` set to `i` for each pad in
increasing order — and the note→pad table present in the input buffer is
never used: replacing those 128 input bytes arbitrarily leaves the parse
result unchanged. -/
theorem claim_C3 (b : List Nat) (p : Program) (out : List Nat)
    (hb : IsByteBuf b) (h : programParse b = .ok p)
    (hout : programData p = .ok out) :
    ((out.drop 10584).take 128 = (midiNotePads p.pads).map Int.toNat ∧
      midiNotePads p.pads = buildMnpGo (List.replicate 128 64) 0 p.pads) ∧
    (∀ t, t.length = 128 → programParse (spliceMnp b t) = .ok p) := by
  obtain ⟨H, P, M, N, S, hdata, hH, hP, hM, hN, -, -, hNdef, -, -⟩ :=
    programData_ok (programParse_ok_wf hb h)
  rw [hout] at hdata
  have hoeq : out = H ++ (P ++ (M ++ (N ++ S))) := by
    injection hdata
  refine ⟨⟨?_, rfl⟩, ?_⟩
  · rw [hoeq, segment_mnp hH hP hM hN, hNdef]
  · intro t ht
    have hlen := (programParse_ok_elim h).1
    rw [programParse_spliceMnp hlen ht]
    exact h

theorem claim_C3_witness :
    ∃ out, programData zeroProgram = .ok out ∧
      (((out.drop 10584).take 128
          = (midiNotePads zeroProgram.pads).map Int.toNat ∧
        midiNotePads zeroProgram.pads
          = buildMnpGo (List.replicate 128 64) 0 zeroProgram.pads) ∧
      (∀ t, t.length = 128 →
        programParse (spliceMnp zeroBuf t) = .ok zeroProgram)) := by
  obtain ⟨H, P, M, N, S, hdata, -⟩ :=
    programData_ok (programParse_ok_wf zeroBuf_bytes programParse_zeroBuf)
  exact ⟨_, hdata,
    claim_C3 zeroBuf zeroProgram _ zeroBuf_bytes programParse_zeroBuf hdata⟩

/-- Claim C4: every bounded integer field of Sample, Pad, and Program rejects
`lower-1` and `upper+1` with a RangeError leaving all stored values intact,
and accepts `lower` and `upper`, storing the assigned value and leaving every
other field unchanged; the same holds for the `midi_note` attribute (bounds
0..127). -/
theorem claim_C4 :
    (∀ (fields : List FieldSpec),
      fields = sampleRec.fields ∨ fields = padRec.fields ∨
        fields = slidersRec.fields →
      ∀ (k : Nat) (f : FieldSpec) (lo hi : Int) (vs : List FVal),
        fields.get? k = some f → f.vld = .intRange lo hi →
        trySet fields vs k (.int (lo - 1)) = (vs, some .rangeError) ∧
        trySet fields vs k (.int (hi + 1)) = (vs, some .rangeError) ∧
        (trySet fields vs k (.int lo) = (vs.set k (.int lo), none) ∧
          (k < vs.length → (vs.set k (.int lo)).get? k = some (.int lo)) ∧
          ∀ j, j ≠ k → (vs.set k (.int lo)).get? j = vs.get? j) ∧
        (trySet fields vs k (.int hi) = (vs.set k (.int hi), none) ∧
          (k < vs.length → (vs.set k (.int hi)).get? k = some (.int hi)) ∧
          ∀ j, j ≠ k → (vs.set k (.int hi)).get? j = vs.get? j)) ∧
    (∀ q : Pad,
      trySetMidiNote q (0 - 1) = (q, some .rangeError) ∧
      trySetMidiNote q (127 + 1) = (q, some .rangeError) ∧
      trySetMidiNote q 0 = (⟨q.samples, q.scalars, 0⟩, none) ∧
      trySetMidiNote q 127 = (⟨q.samples, q.scalars, 127⟩, none)) := by
  constructor
  · intro fields hmem k f lo hi vs hk hvld
    have hf : f ∈ fields := List.get?_mem hk
    have hlohi : lo ≤ hi := by
      have hta : tableLoHiOk fields = true := by
        rcases hmem with rfl | rfl | rfl
        · exact tableLoHiOk_sample
        · exact tableLoHiOk_pad
        · exact tableLoHiOk_sliders
      have := (List.all_eq_true.1 hta) f hf
      rw [hvld] at this
      exact of_decide_eq_true this
    have herr : ∀ z : Int, z < lo ∨ hi < z →
        trySet fields vs k (.int z) = (vs, some .rangeError) := by
      intro z hz
      unfold trySet
      simp only [hk]
      rw [hvld]
      simp only [runValidator]
      rw [if_pos hz]
    have hokv : ∀ z : Int, lo ≤ z → z ≤ hi →
        trySet fields vs k (.int z) = (vs.set k (.int z), none) := by
      intro z hz1 hz2
      unfold trySet
      simp only [hk]
      rw [hvld]
      simp only [runValidator]
      rw [if_neg (by omega)]
    refine ⟨herr _ (by omega), herr _ (by omega), ⟨?_, ?_, ?_⟩, ⟨?_, ?_, ?_⟩⟩
    · exact hokv lo (le_refl lo) hlohi
    · intro hkl
      exact get?_set_eq _ hkl
    · intro j hj
      exact get?_set_ne _ (fun hkj => hj hkj.symm)
    · exact hokv hi hlohi (le_refl hi)
    · intro hkl
      exact get?_set_eq _ hkl
    · intro j hj
      exact get?_set_ne _ (fun hkj => hj hkj.symm)
  · intro q
    have herr : ∀ v : Int, v < 0 ∨ 127 < v →
        trySetMidiNote q v = (q, some .rangeError) := by
      intro v hv
      unfold trySetMidiNote intInRange
      rw [if_pos hv]
    have hokv : ∀ v : Int, 0 ≤ v → v ≤ 127 →
        trySetMidiNote q v = (⟨q.samples, q.scalars, v⟩, none) := by
      intro v h1 h2
      unfold trySetMidiNote intInRange
      rw [if_neg (by omega)]
    exact ⟨herr _ (by omega), herr _ (by omega),
      hokv 0 (by omega) (by omega), hokv 127 (by omega) (by omega)⟩

theorem claim_C4_witness :
    sampleRec.fields.get? 1 = some ⟨17, .u8, .intRange 0 100⟩ ∧
    (trySet sampleRec.fields zeroSampleVals 1 (.int (0 - 1))
        = (zeroSampleVals, some .rangeError) ∧
      trySet sampleRec.fields zeroSampleVals 1 (.int (100 + 1))
        = (zeroSampleVals, some .rangeError) ∧
      (trySet sampleRec.fields zeroSampleVals 1 (.int 0)
          = (zeroSampleVals.set 1 (.int 0), none) ∧
        (1 < zeroSampleVals.length →
          (zeroSampleVals.set 1 (.int 0)).get? 1 = some (.int 0)) ∧
        ∀ j, j ≠ 1 →
          (zeroSampleVals.set 1 (.int 0)).get? j = zeroSampleVals.get? j) ∧
      (trySet sampleRec.fields zeroSampleVals 1 (.int 100)
          = (zeroSampleVals.set 1 (.int 100), none) ∧
        (1 < zeroSampleVals.length →
          (zeroSampleVals.set 1 (.int 100)).get? 1 = some (.int 100)) ∧
        ∀ j, j ≠ 1 →
          (zeroSampleVals.set 1 (.int 100)).get? j = zeroSampleVals.get? j)) ∧
    (trySetMidiNote zeroPad (0 - 1) = (zeroPad, some .rangeError) ∧
      trySetMidiNote zeroPad (127 + 1) = (zeroPad, some .rangeError) ∧
      trySetMidiNote zeroPad 0 = (⟨zeroPad.samples, zeroPad.scalars, 0⟩, none) ∧
      trySetMidiNote zeroPad 127
        = (⟨zeroPad.samples, zeroPad.scalars, 127⟩, none)) :=
  ⟨by decide,
    claim_C4.1 sampleRec.fields (Or.inl rfl) 1 ⟨17, .u8, .intRange 0 100⟩
      0 100 zeroSampleVals (by decide) rfl,
    claim_C4.2 zeroPad⟩

/-- Claim C5: record parsing runs every field's validator on the raw decoded
value in declared order — it fails with a RangeError exactly when some field's
validator rejects its decoded value (for integer-range validators, exactly
when the decoded value lies outside the inclusive bounds), fails with a
FormatError when the buffer is shorter than the declared record size, and
any error means no record value list is produced (the result is `error`). -/
theorem claim_C5 (r : RecordSpec)
    (hr : r = sampleRec ∨ r = padRec ∨ r = slidersRec) (b : List Nat) :
    (b.length < r.size → unpackRecAt r b 0 = .error .formatError) ∧
    (r.size ≤ b.length →
      ((unpackRecAt r b 0 = .error .rangeError) ↔
        ∃ k f, r.fields.get? k = some f ∧
          runValidator f.vld (decodeAt f.code b f.off) = .error .rangeError) ∧
      (∀ e, unpackRecAt r b 0 = .error e → e = .rangeError)) ∧
    (∀ vs, unpackRecAt r b 0 = .ok vs →
      vs = r.fields.map fun f => decodeAt f.code b f.off) := by
  refine ⟨?_, ?_, ?_⟩
  · intro hlen
    unfold unpackRecAt
    rw [if_pos (by omega)]
  · intro hlen
    have hif : unpackRecAt r b 0 = unpackFields b 0 r.fields := by
      unfold unpackRecAt
      rw [if_neg (by omega)]
    constructor
    · rw [hif]
      have h9 : unpackFields b 0 r.fields = .error .rangeError ↔
          ∃ k f, r.fields.get? k = some f ∧
            runValidator f.vld (decodeAt f.code b (0 + f.off))
              = .error .rangeError := unpackFields_error_iff
      simpa [Nat.zero_add] using h9
    · intro e he
      rw [hif] at he
      exact unpackFields_err_eq he
  · intro vs hvs
    obtain ⟨-, hd, -⟩ := unpackRecAt_ok_elim hvs
    have := decodesTo_eq_map hd
    simpa [Nat.zero_add] using this

theorem claim_C5_witness :
    ((List.replicate 23 0 : List Nat).length < sampleRec.size →
      unpackRecAt sampleRec (List.replicate 23 0) 0 = .error .formatError) ∧
    (sampleRec.size ≤ zeroBuf.length →
      ((unpackRecAt sampleRec zeroBuf 0 = .error .rangeError) ↔
        ∃ k f, sampleRec.fields.get? k = some f ∧
          runValidator f.vld (decodeAt f.code zeroBuf f.off)
            = .error .rangeError) ∧
      (∀ e, unpackRecAt sampleRec zeroBuf 0 = .error e → e = .rangeError)) :=
  ⟨(claim_C5 sampleRec (Or.inl rfl) (List.replicate 23 0)).1,
    (claim_C5 sampleRec (Or.inl rfl) zeroBuf).2.1⟩

/-- Claim C6: serialization is total on validated state — a Sample, Pad, or
Program record whose in-memory values all pass their validators always packs
(every validated value fits its format code's width and signedness), and a
whole Program in the validated state always serializes. -/
theorem claim_C6 :
    (∀ (r : RecordSpec), r = sampleRec ∨ r = padRec ∨ r = slidersRec →
      ∀ vs, ValidVals r.fields vs → ∃ bs, packRec r vs = .ok bs) ∧
    (∀ p : Program, ProgramValidated p → ∃ out, programData p = .ok out) := by
  refine ⟨?_, fun p hp => programData_total hp⟩
  rintro r (rfl | rfl | rfl) vs hv
  · exact packRec_ok_of_validated allFits_sample hv
  · exact packRec_ok_of_validated allFits_pad hv
  · exact packRec_ok_of_validated allFits_sliders hv

theorem claim_C6_witness :
    (∃ bs, packRec sampleRec zeroSampleVals = .ok bs) ∧
    (∃ out, programData zeroProgram = .ok out) := by
  have hz := unpackRecAt_zeroBuf 0 (by
    have : sampleRec.size = 24 := rfl
    omega) zeroFieldOk_sample
  have hvv : ValidVals sampleRec.fields zeroSampleVals :=
    (unpackRecAt_ok_elim hz).2.2
  exact ⟨claim_C6.1 sampleRec (Or.inl rfl) zeroSampleVals hvv,
    claim_C6.2 zeroProgram
      (programOk_validated (programParse_ok_wf zeroBuf_bytes programParse_zeroBuf))⟩

/-- Claim C7: serialization emits, in order, a 24-byte header, 64 pad records
of 164 bytes each (four 24-byte sample records then a 68-byte scalar block),
the 64-byte pad→note table, the 128-byte note→pad table, and the 44-byte
global record — 10756 bytes in total. -/
theorem claim_C7 (b : List Nat) (p : Program)
    (hb : IsByteBuf b) (h : programParse b = .ok p) :
    ∃ (out H : List Nat) (pds : List (List Nat)) (M N S : List Nat),
      programData p = .ok out ∧
      out = H ++ (pds.flatten ++ (M ++ (N ++ S))) ∧
      H.length = 24 ∧ pds.length = 64 ∧
      (∀ c ∈ pds, c.length = 164 ∧
        ∃ c0 c1 c2 c3 csc, c = c0 ++ (c1 ++ (c2 ++ (c3 ++ csc))) ∧
          c0.length = 24 ∧ c1.length = 24 ∧ c2.length = 24 ∧ c3.length = 24 ∧
          csc.length = 68) ∧
      M.length = 64 ∧ N.length = 128 ∧ S.length = 44 ∧
      out.length = 10756 := by
  have hwf := programParse_ok_wf hb h
  obtain ⟨H, P, M, N, S, hdata, hH, hP, hM, hN, hS, -, -, hpack, -⟩ :=
    programData_ok hwf
  obtain ⟨pds, rfl, hpdl, hall⟩ := packPads_chunks hwf.2.2.2.2.1 hpack
  refine ⟨_, H, pds, M, N, S, hdata, rfl, hH, ?_, hall, hM, hN, hS, ?_⟩
  · rw [hpdl, hwf.2.2.2.1]
  · simp only [List.length_append, hH, hP, hM, hN, hS]

theorem claim_C7_witness :
    ∃ (out H : List Nat) (pds : List (List Nat)) (M N S : List Nat),
      programData zeroProgram = .ok out ∧
      out = H ++ (pds.flatten ++ (M ++ (N ++ S))) ∧
      H.length = 24 ∧ pds.length = 64 ∧
      (∀ c ∈ pds, c.length = 164 ∧
        ∃ c0 c1 c2 c3 csc, c = c0 ++ (c1 ++ (c2 ++ (c3 ++ csc))) ∧
          c0.length = 24 ∧ c1.length = 24 ∧ c2.length = 24 ∧ c3.length = 24 ∧
          csc.length = 68) ∧
      M.length = 64 ∧ N.length = 128 ∧ S.length = 44 ∧
      out.length = 10756 :=
  claim_C7 zeroBuf zeroProgram zeroBuf_bytes programParse_zeroBuf

/-- Claim C8: a Pad's serialized bytes are the four samples' bytes in slot
order followed by the packed scalar record and do not depend on `midi_note`:
assigning any value in 0..127 to `midi_note` succeeds and leaves the pad's
own serialized bytes unchanged. -/
theorem claim_C8 (p : Pad) (v : Int) (h0 : 0 ≤ v) (h1 : v ≤ 127) :
    trySetMidiNote p v = (⟨p.samples, p.scalars, v⟩, none) ∧
    padData ⟨p.samples, p.scalars, v⟩ = padData p ∧
    (∀ out, padData p = .ok out → ∃ sb scb,
      packSamples p.samples = .ok sb ∧ packRec padRec p.scalars = .ok scb ∧
      out = sb ++ scb) := by
  refine ⟨?_, rfl, ?_⟩
  · unfold trySetMidiNote intInRange
    rw [if_neg (by omega)]
  · intro out hout
    unfold padData at hout
    cases hsb : packSamples p.samples with
    | error e => rw [hsb] at hout; cases hout
    | ok sb =>
      rw [hsb] at hout
      cases hscb : packRec padRec p.scalars with
      | error e => rw [hscb] at hout; cases hout
      | ok scb =>
        rw [hscb] at hout
        cases hout
        exact ⟨sb, scb, rfl, rfl, rfl⟩

theorem claim_C8_witness :
    trySetMidiNote zeroPad 5 = (⟨zeroPad.samples, zeroPad.scalars, 5⟩, none) ∧
    padData ⟨zeroPad.samples, zeroPad.scalars, 5⟩ = padData zeroPad ∧
    (∀ out, padData zeroPad = .ok out → ∃ sb scb,
      packSamples zeroPad.samples = .ok sb ∧
      packRec padRec zeroPad.scalars = .ok scb ∧ out = sb ++ scb) :=
  claim_C8 zeroPad 5 (by decide) (by decide)

/-- Claim C9: parsing validates each pad→note table entry through the
`midi_note` range check — any entry in 128..255 makes the parse fail with a
RangeError — while the 128-byte note→pad table is accepted with arbitrary
contents and discarded. -/
theorem claim_C9 (b : List Nat) (p : Program) (h : programParse b = .ok p) :
    (∀ i w, i < 64 → 128 ≤ w → w ≤ 255 →
      programParse (b.set (10520 + i) w) = .error .rangeError) ∧
    (∀ t, t.length = 128 → programParse (spliceMnp b t) = .ok p) := by
  obtain ⟨hlen, -, -, cores, hc, ha, -⟩ := programParse_ok_elim h
  have hclen := (parsePads_ok_elim hc).1
  constructor
  · intro i w hi hw1 hw2
    set b2 := b.set (10520 + i) w with hb2
    have hl2 : b2.length = b.length := by simp [hb2]
    have hcores2 : parsePads b2 24 64 = .ok cores := by
      have hag := parsePads_agree hl2 64 24 ?_
      · rw [hag]
        exact hc
      · intro m hm
        apply byteAt_set_ne
        omega
    have hmem : (w : Int) ∈ noteVals b2 := by
      unfold noteVals
      apply List.mem_map.2
      refine ⟨i, List.mem_range.2 hi, ?_⟩
      rw [hb2, byteAt_set_eq w (by omega)]
    have hassign : assignNotes cores (noteVals b2) = .error .rangeError := by
      apply assignNotes_err
      · rw [hclen]
        unfold noteVals
        simp
      · exact ⟨(w : Int), hmem, by omega⟩
    unfold programParse
    rw [if_neg (by omega : ¬ b2.length < 24)]
    simp only [hcores2]
    rw [if_neg (by omega : ¬ b2.length < 10584)]
    simp only [hassign]
  · intro t ht
    rw [programParse_spliceMnp hlen ht]
    exact h

theorem claim_C9_witness :
    (∀ i w, i < 64 → 128 ≤ w → w ≤ 255 →
      programParse (zeroBuf.set (10520 + i) w) = .error .rangeError) ∧
    (∀ t, t.length = 128 →
      programParse (spliceMnp zeroBuf t) = .ok zeroProgram) :=
  claim_C9 zeroBuf zeroProgram programParse_zeroBuf

/-- Claim C10: the two note tables are derived views of the pad list — after
any sequence of validated mutations of a parsed program, `pad_midi_notes` has
64 entries in 0..127, `midi_note_pads` has 128 entries in 0..64, and
`midi_note_pads` is exactly the inverse mapping of the current pads'
`midi_note` values (last pad wins, sentinel 64 for unassigned notes). -/
theorem claim_C10 (b : List Nat) (p : Program) (h : programParse b = .ok p)
    (ops : List ProgOp) :
    (padMidiNotes (applyOps p ops).pads).length = 64 ∧
    (∀ z ∈ padMidiNotes (applyOps p ops).pads, 0 ≤ z ∧ z ≤ 127) ∧
    (midiNotePads (applyOps p ops).pads).length = 128 ∧
    (∀ x ∈ midiNotePads (applyOps p ops).pads, 0 ≤ x ∧ x ≤ 64) ∧
    (∀ n, n < 128 →
      ((midiNotePads (applyOps p ops).pads).getD n 64 = 64 ∧
        ∀ l r, (applyOps p ops).pads.get? l = some r →
          r.midi_note ≠ (n : Int)) ∨
      (∃ (k : Nat) (r : Pad),
        (midiNotePads (applyOps p ops).pads).getD n 64 = (k : Int) ∧
        (applyOps p ops).pads.get? k = some r ∧ r.midi_note = (n : Int) ∧
        ∀ l r2, k < l → (applyOps p ops).pads.get? l = some r2 →
          r2.midi_note ≠ (n : Int))) := by
  obtain ⟨h64, hnotes⟩ : NotesOk (applyOps p ops) :=
    applyOps_notesOk (programParse_ok_notesOk h)
  refine ⟨?_, ?_, midiNotePads_length _, midiNotePads_entries (by omega), ?_⟩
  · simp [padMidiNotes, h64]
  · intro z hz
    obtain ⟨q, hq, rfl⟩ := List.mem_map.1 hz
    exact hnotes q hq
  · intro n hn
    have hg := midiNotePads_getD hn hnotes
    cases ht : lastIdxWith (applyOps p ops).pads n with
    | none =>
      left
      simp only [ht] at hg
      exact ⟨hg, fun l r hl => (lastIdxWith_spec _).2 ht l r hl⟩
    | some k =>
      right
      simp only [ht] at hg
      obtain ⟨r, hr, hrm, hrmax⟩ := (lastIdxWith_spec _).1 k ht
      exact ⟨k, r, hg, hr, hrm, hrmax⟩

theorem claim_C10_witness :
    (padMidiNotes (applyOps zeroProgram []).pads).length = 64 ∧
    (∀ z ∈ padMidiNotes (applyOps zeroProgram []).pads, 0 ≤ z ∧ z ≤ 127) ∧
    (midiNotePads (applyOps zeroProgram []).pads).length = 128 ∧
    (∀ x ∈ midiNotePads (applyOps zeroProgram []).pads, 0 ≤ x ∧ x ≤ 64) ∧
    (∀ n, n < 128 →
      ((midiNotePads (applyOps zeroProgram []).pads).getD n 64 = 64 ∧
        ∀ l r, (applyOps zeroProgram []).pads.get? l = some r →
          r.midi_note ≠ (n : Int)) ∨
      (∃ (k : Nat) (r : Pad),
        (midiNotePads (applyOps zeroProgram []).pads).getD n 64 = (k : Int) ∧
        (applyOps zeroProgram []).pads.get? k = some r ∧
        r.midi_note = (n : Int) ∧
        ∀ l r2, k < l → (applyOps zeroProgram []).pads.get? l = some r2 →
          r2.midi_note ≠ (n : Int))) :=
  claim_C10 zeroBuf zeroProgram programParse_zeroBuf []

end Mpc1000
